import Mathlib

/-!
Verification of the batch-orchestration core of RJ-Auto-Metadata.

The definitions below are shallow embeddings of the Python source:

* `src/processing/batch_processing.py` — retry policy (`RETRYABLE_STATUSES`,
  `NON_RETRYABLE_STATUSES`, `is_retryable`), the per-file post-processing of
  `process_single_file`, and the orchestrator loop `batch_process_files`
  (main pass, cancellation cleanup, auto-retry loop).
* `src/api/gemini_api.py` — LRU API-key selection (`select_smart_api_key`).
* `src/metadata/csv_exporter.py` — keyword processing of
  `write_to_platform_csvs_safe`.
* `src/processing/image_processing/format_jpg_jpeg_processing.py` and
  `process_vector_file` of `batch_processing.py` — per-file pipelines.

Statuses are free strings in the source and are kept as `String` here.
Python `int` counters are embedded as `Int`; timestamps as `Nat`.
-/

/-! ## Retry policy (batch_processing.py lines 38-61) -/

/-- Embeds `RETRYABLE_STATUSES` (batch_processing.py lines 38-47):
each retryable status maps to its (priority, max_attempts) entry. -/
def RETRYABLE_STATUSES : List (String × String × Nat) :=
  [("failed_api", ("HIGH", 5)),
   ("failed_copy", ("MEDIUM", 3)),
   ("failed_conversion", ("MEDIUM", 3)),
   ("failed_frames", ("MEDIUM", 3)),
   ("failed_worker", ("MEDIUM", 2)),
   ("failed_timeout", ("MEDIUM", 2)),
   ("failed_exception", ("LOW", 2)),
   ("debug_artificial_failure", ("HIGH", 3))]

/-- Embeds `NON_RETRYABLE_STATUSES` (batch_processing.py lines 49-51). -/
def NON_RETRYABLE_STATUSES : List String :=
  ["failed_format", "failed_empty", "failed_input_missing"]

/-- Embeds `is_retryable` (batch_processing.py lines 53-61). -/
def is_retryable (status : String) (attempt : Nat) : Bool :=
  if status ∈ NON_RETRYABLE_STATUSES then false
  else
    match RETRYABLE_STATUSES.lookup status with
    | some entry => attempt < entry.2
    | none => false

/-- Modelled from the spec: the retryable table as the spec states it
(section 4.2), with max_attempts per status; used only to compare the
spec's table against the code's `RETRYABLE_STATUSES`. The spec's names
`failed_api_call`, `failed_copy_to_output`, `failed_format_conversion`,
`failed_frame_extraction`, `failed_worker_exception`, `failed_timeout`,
`failed_unclassified_exception` are the spec's renaming of the code's
status strings, rendered here with the code's strings. -/
def spec_retry_table : List (String × Nat) :=
  [("failed_api", 5), ("failed_copy", 3), ("failed_conversion", 3),
   ("failed_frames", 3), ("failed_worker", 2), ("failed_timeout", 2),
   ("failed_exception", 2)]

/-- Modelled from the spec: the characteristic function of the spec's
retryable table, as claim C1 states `is_retryable` should behave. -/
def spec_is_retryable (status : String) (n : Nat) : Bool :=
  match spec_retry_table.lookup status with
  | some m => n < m
  | none => false

/-- Amended table: the spec's table plus the `debug_artificial_failure`
entry (max_attempts 3) that the code's `RETRYABLE_STATUSES` also holds. -/
def amended_retry_table : List (String × Nat) :=
  [("failed_api", 5), ("failed_copy", 3), ("failed_conversion", 3),
   ("failed_frames", 3), ("failed_worker", 2), ("failed_timeout", 2),
   ("failed_exception", 2), ("debug_artificial_failure", 3)]

/-- Characteristic function of the amended table. -/
def amended_is_retryable (status : String) (n : Nat) : Bool :=
  match amended_retry_table.lookup status with
  | some m => n < m
  | none => false

/-- C1 counterexample: the code's retry table holds a status outside the
spec's fixed table, `debug_artificial_failure`, and `is_retryable` accepts
it at attempt 0 even though by the claim every status outside the spec's
table is never retryable. -/
theorem C1_counterexample :
    is_retryable "debug_artificial_failure" 0 = true ∧
    spec_is_retryable "debug_artificial_failure" 0 = false := by
  decide

/-- C1 (amended): with the extra `debug_artificial_failure` (3 attempts)
entry added to the table, `is_retryable` is exactly the characteristic
function of the table: true iff the status is in the table with
`attempt < max_attempts`, and false for every status outside it (including
the non-retryable failures and all success/skip/stop statuses) at every
attempt count. -/
theorem C1_amended_char_function :
    ∀ (status : String) (n : Nat),
      is_retryable status n = amended_is_retryable status n := by
  intro status n
  by_cases h1 : status = "failed_api"
  · subst h1; rfl
  by_cases h2 : status = "failed_copy"
  · subst h2; rfl
  by_cases h3 : status = "failed_conversion"
  · subst h3; rfl
  by_cases h4 : status = "failed_frames"
  · subst h4; rfl
  by_cases h5 : status = "failed_worker"
  · subst h5; rfl
  by_cases h6 : status = "failed_timeout"
  · subst h6; rfl
  by_cases h7 : status = "failed_exception"
  · subst h7; rfl
  by_cases h8 : status = "debug_artificial_failure"
  · subst h8; rfl
  by_cases h9 : status = "failed_format"
  · subst h9; rfl
  by_cases h10 : status = "failed_empty"
  · subst h10; rfl
  by_cases h11 : status = "failed_input_missing"
  · subst h11; rfl
  · have e1 : (status == "failed_api") = false := beq_eq_false_iff_ne.mpr h1
    have e2 : (status == "failed_copy") = false := beq_eq_false_iff_ne.mpr h2
    have e3 : (status == "failed_conversion") = false := beq_eq_false_iff_ne.mpr h3
    have e4 : (status == "failed_frames") = false := beq_eq_false_iff_ne.mpr h4
    have e5 : (status == "failed_worker") = false := beq_eq_false_iff_ne.mpr h5
    have e6 : (status == "failed_timeout") = false := beq_eq_false_iff_ne.mpr h6
    have e7 : (status == "failed_exception") = false := beq_eq_false_iff_ne.mpr h7
    have e8 : (status == "debug_artificial_failure") = false :=
      beq_eq_false_iff_ne.mpr h8
    simp [is_retryable, amended_is_retryable, RETRYABLE_STATUSES,
      amended_retry_table, NON_RETRYABLE_STATUSES, List.lookup,
      h1, h2, h3, h4, h5, h6, h7, h8, h9, h10, h11,
      e1, e2, e3, e4, e5, e6, e7, e8]

/-! ## Keyword processing (csv_exporter.py lines 463-466) -/

/-- Embeds the Python filter condition `k and str(k).strip()` of
csv_exporter.py line 465 for string keywords: drop empty and
whitespace-only entries. -/
def keywordKept (k : String) : Bool :=
  k ≠ "" && k.trim ≠ ""

/-- Embeds `dict.fromkeys` deduplication (csv_exporter.py line 465):
keep the first occurrence of each keyword, preserving order; `seen` is
the set of keys already emitted. -/
def dedupFirst (seen : List String) : List String → List String
  | [] => []
  | k :: ks =>
    if k ∈ seen then dedupFirst seen ks
    else k :: dedupFirst (k :: seen) ks

/-- Embeds csv_exporter.py lines 463-466 (`write_to_platform_csvs_safe`,
list branch): filter falsy/whitespace-only keywords, deduplicate with
`dict.fromkeys`, then cap at `max_keywords`. -/
def processKeywords (keywords : List String) (maxKeywords : Nat) : List String :=
  (dedupFirst [] (keywords.filter keywordKept)).take maxKeywords

theorem dedupFirst_sublist : ∀ (l seen : List String), List.Sublist (dedupFirst seen l) l := by
  intro l
  induction l with
  | nil => intro seen; simp [dedupFirst]
  | cons k ks ih =>
    intro seen
    by_cases h : k ∈ seen
    · simpa [dedupFirst, h] using (ih seen).cons k
    · simpa [dedupFirst, h] using (ih (k :: seen)).cons₂ k

theorem mem_dedupFirst : ∀ (l seen : List String) (x : String),
    x ∈ dedupFirst seen l → x ∉ seen := by
  intro l
  induction l with
  | nil => intro seen x hx; simp [dedupFirst] at hx
  | cons k ks ih =>
    intro seen x hx
    by_cases h : k ∈ seen
    · simp only [dedupFirst, if_pos h] at hx
      exact ih seen x hx
    · simp only [dedupFirst, if_neg h, List.mem_cons] at hx
      rcases hx with rfl | hx
      · exact h
      · intro hs
        exact ih (k :: seen) x hx (List.mem_cons_of_mem k hs)

theorem dedupFirst_nodup : ∀ (l seen : List String), (dedupFirst seen l).Nodup := by
  intro l
  induction l with
  | nil => intro seen; simp [dedupFirst]
  | cons k ks ih =>
    intro seen
    by_cases h : k ∈ seen
    · simpa [dedupFirst, h] using ih seen
    · simp only [dedupFirst, if_neg h]
      refine List.nodup_cons.mpr ⟨?_, ih (k :: seen)⟩
      intro hk
      exact mem_dedupFirst ks (k :: seen) k hk (List.mem_cons_self k seen)

/-- C9: for every keyword list handed to the CSV export step with any cap,
the processed tag sequence is duplicate-free, is an order-preserving
subsequence of the input (first occurrences kept), holds no
empty/whitespace-only entry, and has length at most the cap. -/
theorem C9_keyword_processing :
    ∀ (keywords : List String) (maxKeywords : Nat),
      (processKeywords keywords maxKeywords).Nodup ∧
      List.Sublist (processKeywords keywords maxKeywords) keywords ∧
      (∀ k ∈ processKeywords keywords maxKeywords, k ≠ "" ∧ k.trim ≠ "") ∧
      (processKeywords keywords maxKeywords).length ≤ maxKeywords := by
  intro keywords maxKeywords
  refine ⟨?_, ?_, ?_, ?_⟩
  · exact (dedupFirst_nodup _ []).sublist (List.take_sublist _ _)
  · exact ((List.take_sublist _ _).trans (dedupFirst_sublist _ [])).trans
      (List.filter_sublist keywords)
  · intro k hk
    have hk1 : k ∈ keywords.filter keywordKept :=
      (dedupFirst_sublist _ []).subset ((List.take_sublist _ _).subset hk)
    have := (List.mem_filter.mp hk1).2
    simpa [keywordKept] using this
  · simp [processKeywords]

/-! ## Original-input deletion (batch_processing.py lines 441-486) -/

/-- Embeds `processed_statuses` (batch_processing.py lines 441-442):
the success statuses of the per-file pipeline. -/
def processed_statuses : List String :=
  ["processed_exif", "processed_no_exif",
   "processed_exif_failed", "processed_unknown_exif_status"]

/-- Embeds the original-input deletion condition of `process_single_file`
(batch_processing.py lines 443 and 482-486): the deletion of the input
file sits inside the `status in processed_statuses` branch and is guarded
by `status != "failed_copy"`, `status != "skipped_exists"` and the input
still existing. -/
def deletesOriginalInput (status : String) (inputExists : Bool) : Bool :=
  if status ∈ processed_statuses then
    status ≠ "failed_copy" && status ≠ "skipped_exists" && inputExists
  else false

/-- C10: `process_single_file` deletes the original input exactly when the
pipeline returned one of the four success statuses (the guards against
`failed_copy` and `skipped_exists` are subsumed because those are not
success statuses); a skipped or failed file is left in place. -/
theorem C10_input_deletion :
    ∀ status : String,
      (deletesOriginalInput status true = true ↔ status ∈ processed_statuses) ∧
      deletesOriginalInput "skipped_exists" true = false ∧
      deletesOriginalInput "failed_api" true = false ∧
      deletesOriginalInput status false = false := by
  intro status
  refine ⟨⟨?_, ?_⟩, by decide, by decide, ?_⟩
  · intro h
    by_cases hm : status ∈ processed_statuses
    · exact hm
    · simp [deletesOriginalInput, hm] at h
  · intro hm
    have h1 : status ≠ "failed_copy" := by
      intro h; rw [h] at hm; simp [processed_statuses] at hm
    have h2 : status ≠ "skipped_exists" := by
      intro h; rw [h] at hm; simp [processed_statuses] at hm
    simp [deletesOriginalInput, hm, h1, h2]
  · by_cases hm : status ∈ processed_statuses <;>
      simp [deletesOriginalInput, hm]

/-! ## API-key selection (gemini_api.py lines 56-60 and 102-114) -/

/-- Embeds the module state `API_KEY_LAST_USED` (gemini_api.py line 58):
a dictionary of last-used timestamps per key, read with `.get(key, 0)`. -/
structure KeyState where
  lastUsed : List (String × Nat)
deriving Repr, DecidableEq

/-- Embeds `API_KEY_LAST_USED.get(key, 0)` (gemini_api.py line 109). -/
def lastUsedOf (st : KeyState) (k : String) : Nat :=
  (st.lastUsed.lookup k).getD 0

/-- Embeds taking element 0 of Python's stable sort of `(last_used, key)`
pairs (gemini_api.py lines 111-112): the head of a stable sort by the
timestamp component is the first pair attaining the minimal timestamp,
computed here by a left fold that replaces the current best only on a
strictly smaller timestamp. -/
def selectFirstMin (x : Nat × String) : List (Nat × String) → Nat × String
  | [] => x
  | y :: ys => selectFirstMin (if y.1 < x.1 then y else x) ys

/-- Embeds `select_smart_api_key` (gemini_api.py lines 102-114): `none` on
an empty key list, otherwise the least-recently-used key (ties broken by
original list order) together with the state where that key's last-used
timestamp is set to `now`. -/
def select_smart_api_key (st : KeyState) (now : Nat) (keys : List String) :
    Option (String × KeyState) :=
  match keys.map (fun k => (lastUsedOf st k, k)) with
  | [] => none
  | s :: ss =>
    let selected := (selectFirstMin s ss).2
    some (selected, KeyState.mk ((selected, now) :: st.lastUsed))

/-- Embeds the rate-limit (HTTP 429) branch of the Gemini client
(gemini_api.py lines 761-772): on a 429 the code only logs a warning and
falls through to the bounded in-call retry; it writes neither
`API_KEY_LAST_USED` nor any blacklist structure (no blacklist map exists
anywhere in the module), so the key-selection state is unchanged. -/
def gemini_rate_limit_update (st : KeyState) : KeyState := st

/-- Runs `select_smart_api_key` once per timestamp in `times`, always over
the same key list, collecting the selected keys (as the orchestrator's
workers would across consecutive calls). -/
def runSelections (st : KeyState) (keys : List String) :
    List Nat → List String × KeyState
  | [] => ([], st)
  | now :: later =>
    match select_smart_api_key st now keys with
    | none => ([], st)
    | some (k, st1) =>
      let rest := runSelections st1 keys later
      (k :: rest.1, rest.2)

theorem selectFirstMin_keep : ∀ (l : List (Nat × String)) (x : Nat × String),
    (∀ y ∈ l, ¬ (y.1 < x.1)) → selectFirstMin x l = x := by
  intro l
  induction l with
  | nil => intro x _; rfl
  | cons y ys ih =>
    intro x h
    have hy : ¬ (y.1 < x.1) := h y (List.mem_cons_self y ys)
    simp only [selectFirstMin, if_neg hy]
    exact ih x (fun z hz => h z (List.mem_cons_of_mem y hz))

theorem selectFirstMin_first : ∀ (A : List (Nat × String)) (x : Nat × String)
    (t0 : Nat) (k : String) (B : List (Nat × String)),
    t0 < x.1 → (∀ y ∈ A, t0 < y.1) → (∀ y ∈ B, ¬ (y.1 < t0)) →
    selectFirstMin x (A ++ (t0, k) :: B) = (t0, k) := by
  intro A
  induction A with
  | nil =>
    intro x t0 k B hx _ hB
    simp only [List.nil_append, selectFirstMin, if_pos hx]
    exact selectFirstMin_keep B (t0, k) hB
  | cons a A2 ih =>
    intro x t0 k B hx hA hB
    have ha : t0 < a.1 := hA a (List.mem_cons_self a A2)
    have hA2 : ∀ y ∈ A2, t0 < y.1 := fun y hy => hA y (List.mem_cons_of_mem a hy)
    simp only [List.cons_append, selectFirstMin]
    by_cases hc : a.1 < x.1
    · rw [if_pos hc]; exact ih a t0 k B ha hA2 hB
    · rw [if_neg hc]; exact ih x t0 k B hx hA2 hB

theorem selectFirstMin_mem : ∀ (l : List (Nat × String)) (x : Nat × String),
    selectFirstMin x l ∈ x :: l := by
  intro l
  induction l with
  | nil => intro x; simp [selectFirstMin]
  | cons y ys ih =>
    intro x
    rw [selectFirstMin]
    by_cases hc : y.1 < x.1
    · rw [if_pos hc]
      exact List.mem_cons_of_mem x (ih y)
    · rw [if_neg hc]
      rcases List.mem_cons.mp (ih x) with h | h
      · rw [h]; exact List.mem_cons_self x (y :: ys)
      · exact List.mem_cons_of_mem x (List.mem_cons_of_mem y h)

theorem selectFirstMin_min : ∀ (l : List (Nat × String)) (x : Nat × String),
    (selectFirstMin x l).1 ≤ x.1 ∧ ∀ y ∈ l, (selectFirstMin x l).1 ≤ y.1 := by
  intro l
  induction l with
  | nil => intro x; exact ⟨le_refl _, by simp⟩
  | cons y ys ih =>
    intro x
    simp only [selectFirstMin]
    by_cases hc : y.1 < x.1
    · rw [if_pos hc]
      rcases ih y with ⟨h1, h2⟩
      refine ⟨h1.trans hc.le, ?_⟩
      intro z hz
      rcases List.mem_cons.mp hz with rfl | hz2
      · exact h1
      · exact h2 z hz2
    · rw [if_neg hc]
      rcases ih x with ⟨h1, h2⟩
      refine ⟨h1, ?_⟩
      intro z hz
      rcases List.mem_cons.mp hz with rfl | hz2
      · exact h1.trans (not_lt.mp hc)
      · exact h2 z hz2

theorem lastUsedOf_cons_self (l : List (String × Nat)) (k : String) (t : Nat) :
    lastUsedOf (KeyState.mk ((k, t) :: l)) k = t := by
  simp [lastUsedOf, List.lookup]

theorem lastUsedOf_cons_ne (l : List (String × Nat)) (k j : String) (t : Nat)
    (h : j ≠ k) : lastUsedOf (KeyState.mk ((k, t) :: l)) j =
      lastUsedOf (KeyState.mk l) j := by
  simp [lastUsedOf, List.lookup, beq_eq_false_iff_ne.mpr h]

theorem select_smart_api_key_fresh :
    ∀ (done : List String) (k : String) (rest : List String) (st : KeyState)
      (t0 now : Nat),
      (∀ d ∈ done, t0 < lastUsedOf st d) →
      lastUsedOf st k = t0 →
      (∀ r ∈ rest, lastUsedOf st r = t0) →
      select_smart_api_key st now (done ++ k :: rest) =
        some (k, KeyState.mk ((k, now) :: st.lastUsed)) := by
  intro done k rest st t0 now hdone hk hrest
  have hmap : (done ++ k :: rest).map (fun j => (lastUsedOf st j, j)) =
      done.map (fun j => (lastUsedOf st j, j)) ++
        (t0, k) :: rest.map (fun j => (lastUsedOf st j, j)) := by
    rw [List.map_append, List.map_cons, hk]
  cases hd : done with
  | nil =>
    subst hd
    simp only [List.nil_append] at hmap ⊢
    simp only [select_smart_api_key, hmap, List.map_cons, hk]
    have : selectFirstMin (t0, k) (rest.map (fun j => (lastUsedOf st j, j))) =
        (t0, k) := by
      apply selectFirstMin_keep
      intro y hy
      rcases List.mem_map.mp hy with ⟨r, hr, rfl⟩
      simp [hrest r hr]
    simp [select_smart_api_key, hmap, this]
  | cons d ds =>
    subst hd
    have hmap2 : ((d :: ds) ++ k :: rest).map (fun j => (lastUsedOf st j, j)) =
        (lastUsedOf st d, d) :: (ds.map (fun j => (lastUsedOf st j, j)) ++
          (t0, k) :: rest.map (fun j => (lastUsedOf st j, j))) := by
      rw [hmap]; simp
    have hsel : selectFirstMin (lastUsedOf st d, d)
        (ds.map (fun j => (lastUsedOf st j, j)) ++
          (t0, k) :: rest.map (fun j => (lastUsedOf st j, j))) = (t0, k) := by
      apply selectFirstMin_first
      · exact hdone d (List.mem_cons_self d ds)
      · intro y hy
        rcases List.mem_map.mp hy with ⟨e, he, rfl⟩
        exact hdone e (List.mem_cons_of_mem d he)
      · intro y hy
        rcases List.mem_map.mp hy with ⟨r, hr, rfl⟩
        simp [hrest r hr]
    rw [select_smart_api_key, hmap2]
    simp [hsel]

theorem runSelections_fresh :
    ∀ (times : List Nat) (remaining done : List String) (st : KeyState)
      (t0 : Nat),
      (done ++ remaining).Nodup →
      (∀ d ∈ done, t0 < lastUsedOf st d) →
      (∀ r ∈ remaining, lastUsedOf st r = t0) →
      times.length = remaining.length →
      (∀ t ∈ times, t0 < t) →
      (runSelections st (done ++ remaining) times).1 = remaining ∧
      (∀ d ∈ done,
        lastUsedOf (runSelections st (done ++ remaining) times).2 d =
          lastUsedOf st d) ∧
      (∀ p ∈ remaining.zip times,
        lastUsedOf (runSelections st (done ++ remaining) times).2 p.1 = p.2) := by
  intro times
  induction times with
  | nil =>
    intro remaining done st t0 _ _ _ hlen _
    have : remaining = [] := by
      cases remaining with
      | nil => rfl
      | cons r rs => simp at hlen
    subst this
    simp [runSelections]
  | cons now later ih =>
    intro remaining done st t0 hnd hdone hrem hlen htimes
    cases remaining with
    | nil => simp at hlen
    | cons k rest =>
      have hk : lastUsedOf st k = t0 := hrem k (List.mem_cons_self k rest)
      have hrest : ∀ r ∈ rest, lastUsedOf st r = t0 :=
        fun r hr => hrem r (List.mem_cons_of_mem k hr)
      have hselect := select_smart_api_key_fresh done k rest st t0 now hdone hk hrest
      have hnow : t0 < now := htimes now (List.mem_cons_self now later)
      have hkdone : k ∉ done := by
        intro hkd
        have := (List.nodup_append.mp hnd).2.2
        exact this hkd (List.mem_cons_self k rest)
      have hkrest : k ∉ rest := by
        have := (List.nodup_append.mp hnd).2.1
        exact (List.nodup_cons.mp this).1
      set st1 : KeyState := KeyState.mk ((k, now) :: st.lastUsed) with hst1
      have happ : (done ++ [k]) ++ rest = done ++ k :: rest := by simp
      have hnd2 : ((done ++ [k]) ++ rest).Nodup := by rw [happ]; exact hnd
      have hdone2 : ∀ d ∈ done ++ [k], t0 < lastUsedOf st1 d := by
        intro d hd
        rcases List.mem_append.mp hd with hd1 | hd1
        · have hne : d ≠ k := fun h => hkdone (h ▸ hd1)
          rw [hst1, lastUsedOf_cons_ne st.lastUsed k d now hne]
          exact hdone d hd1
        · have : d = k := by simpa using hd1
          subst this
          rw [hst1, lastUsedOf_cons_self]
          exact hnow
      have hrem2 : ∀ r ∈ rest, lastUsedOf st1 r = t0 := by
        intro r hr
        have hne : r ≠ k := fun h => hkrest (h ▸ hr)
        rw [hst1, lastUsedOf_cons_ne st.lastUsed k r now hne]
        exact hrest r hr
      have hlen2 : later.length = rest.length := by simpa using hlen
      have htimes2 : ∀ t ∈ later, t0 < t :=
        fun t ht => htimes t (List.mem_cons_of_mem now ht)
      have hIH := ih rest (done ++ [k]) st1 t0 hnd2 hdone2 hrem2 hlen2 htimes2
      rw [happ] at hIH
      rcases hIH with ⟨hout, hframe, hzip⟩
      have hrun : runSelections st (done ++ k :: rest) (now :: later) =
          ((k :: (runSelections st1 (done ++ k :: rest) later).1),
            (runSelections st1 (done ++ k :: rest) later).2) := by
        rw [runSelections, hselect]
      refine ⟨?_, ?_, ?_⟩
      · rw [hrun]; simp [hout]
      · intro d hd
        rw [hrun]
        have hne : d ≠ k := fun h => hkdone (h ▸ hd)
        have := hframe d (List.mem_append.mpr (Or.inl hd))
        rw [this, hst1, lastUsedOf_cons_ne st.lastUsed k d now hne]
      · intro p hp
        rw [hrun]
        rcases List.mem_cons.mp (by simpa using hp) with hp1 | hp1
        · rw [hp1]
          have hkmem : k ∈ done ++ [k] := List.mem_append.mpr (Or.inr (by simp))
          have := hframe k hkmem
          rw [this, hst1, lastUsedOf_cons_self]
        · exact hzip p hp1

/-- C7: with a non-empty duplicate-free key list whose last-used timestamps
are all equal (no cooldown or blacklist active) and strictly increasing
call times later than that common timestamp, n consecutive calls of
`select_smart_api_key` return each key exactly once in original list
order, and each call records its time as the selected key's last-used
timestamp. -/
theorem C7_lru_round_robin :
    ∀ (keys : List String) (times : List Nat) (st : KeyState) (t0 : Nat),
      keys.Nodup →
      (∀ k ∈ keys, lastUsedOf st k = t0) →
      times.length = keys.length →
      (∀ t ∈ times, t0 < t) →
      (runSelections st keys times).1 = keys ∧
      (∀ p ∈ keys.zip times,
        lastUsedOf (runSelections st keys times).2 p.1 = p.2) := by
  intro keys times st t0 hnd hall hlen htimes
  have h := runSelections_fresh times keys [] st t0 (by simpa using hnd)
    (by intro d hd; simp at hd) hall (by simpa using hlen) htimes
  rw [List.nil_append] at h
  exact ⟨h.1, h.2.2⟩

/-- C7 witness: three fresh keys selected at times 1, 2, 3 come back in
list order, each timestamp recorded. -/
theorem C7_witness :
    (runSelections (KeyState.mk []) ["alpha", "beta", "gamma"] [1, 2, 3]).1 =
      ["alpha", "beta", "gamma"] ∧
    (∀ p ∈ (["alpha", "beta", "gamma"].zip [1, 2, 3] : List (String × Nat)),
      lastUsedOf
        (runSelections (KeyState.mk []) ["alpha", "beta", "gamma"] [1, 2, 3]).2
          p.1 = p.2) :=
  C7_lru_round_robin ["alpha", "beta", "gamma"] [1, 2, 3] (KeyState.mk []) 0
    (by decide) (by decide) (by decide) (by decide)

/-- C8 counterexample: key "keyA" is selected at time 1 and its call is
rate-limited (429) at time 2; the 429 branch leaves the selection state
unchanged (no blacklist exists in the code), so after "keyB" is used at
time 3, the very next selection at time 4 returns "keyA" again — well
before any 60-second window after the rate limit would elapse (4 < 62) —
even though the never-rate-limited alternative "keyB" exists. This
refutes the claim that a rate-limited key is parked and never selected
before T+window while a non-parked alternative exists. -/
theorem C8_counterexample :
    select_smart_api_key (KeyState.mk []) 1 ["keyA", "keyB"] =
      some ("keyA", KeyState.mk [("keyA", 1)]) ∧
    gemini_rate_limit_update (KeyState.mk [("keyA", 1)]) =
      KeyState.mk [("keyA", 1)] ∧
    select_smart_api_key (KeyState.mk [("keyA", 1)]) 3 ["keyA", "keyB"] =
      some ("keyB", KeyState.mk [("keyB", 3), ("keyA", 1)]) ∧
    select_smart_api_key (KeyState.mk [("keyB", 3), ("keyA", 1)]) 4
        ["keyA", "keyB"] =
      some ("keyA", KeyState.mk [("keyA", 4), ("keyB", 3), ("keyA", 1)]) ∧
    4 < 2 + 60 := by
  decide

/-- C8 (amended): the code has no blacklist: a rate-limit (429) response
leaves the key-selection state untouched, so a rate-limited key may be
selected again immediately. What does hold: selection never blocks — for
every non-empty key list it returns some key of the list, and always one
whose last-used timestamp is minimal among the given keys. -/
theorem C8_amended_selection_total_lru :
    ∀ (st : KeyState) (now : Nat) (keys : List String),
      keys ≠ [] →
      ∃ k st1, select_smart_api_key (gemini_rate_limit_update st) now keys =
          some (k, st1) ∧ k ∈ keys ∧
        ∀ j ∈ keys, lastUsedOf st k ≤ lastUsedOf st j := by
  intro st now keys hne
  cases keys with
  | nil => exact absurd rfl hne
  | cons k0 krest =>
    set g : String → Nat × String := fun j => (lastUsedOf st j, j) with hg
    have hmap : (k0 :: krest).map g = g k0 :: krest.map g := by
      rw [List.map_cons]
    set r : Nat × String := selectFirstMin (g k0) (krest.map g) with hr
    have hmem : r ∈ g k0 :: krest.map g := selectFirstMin_mem (krest.map g) (g k0)
    have hmem2 : r ∈ (k0 :: krest).map g := by rw [hmap]; exact hmem
    rcases List.mem_map.mp hmem2 with ⟨j0, hj0, hj0r⟩
    have hmin := selectFirstMin_min (krest.map g) (g k0)
    refine ⟨r.2, KeyState.mk ((r.2, now) :: (gemini_rate_limit_update st).lastUsed),
      ?_, ?_, ?_⟩
    · show select_smart_api_key st now (k0 :: krest) = _
      rw [select_smart_api_key, hmap]
      rfl
    · rw [← hj0r]
      exact hj0
    · intro j hj
      have hr2 : lastUsedOf st r.2 = r.1 := by
        rw [← hj0r]
      rw [hr2]
      rcases List.mem_cons.mp hj with rfl | hj2
      · exact hmin.1
      · exact hmin.2 (g j) (List.mem_map.mpr ⟨j, hj2, rfl⟩)

/-- C8 amended witness: a two-key pool at concrete timestamps. -/
theorem C8_amended_witness :
    ∃ k st1, select_smart_api_key
        (gemini_rate_limit_update (KeyState.mk [("keyA", 7)])) 9
        ["keyA", "keyB"] = some (k, st1) ∧ k ∈ ["keyA", "keyB"] ∧
      ∀ j ∈ ["keyA", "keyB"],
        lastUsedOf (KeyState.mk [("keyA", 7)]) k ≤
          lastUsedOf (KeyState.mk [("keyA", 7)]) j :=
  C8_amended_selection_total_lru (KeyState.mk [("keyA", 7)]) 9
    ["keyA", "keyB"] (by decide)

/-! ## Per-file pipelines (format_jpg_jpeg_processing.py lines 28-141 and
batch_processing.py lines 63-222) -/

/-- Observable side effects of a per-file pipeline run, in program order:
temp-file compression, the provider metadata call, copying the original
into the output directory, the EXIF embed subprocess, and removal of the
produced output file. -/
inductive PipelineEffect
  | compressTemp
  | providerCall
  | copyToOutput
  | writeExif
  | removeOutput
  | convertVector
deriving Repr, DecidableEq

/-- Result of `get_metadata`/`get_gemini_metadata` as the pipelines branch
on it: the string "stopped", a dict with an "error" key, a metadata dict,
or anything else (invalid). -/
inductive MetadataResult
  | stopped
  | errorDict
  | metadataDict
  | invalid
deriving Repr, DecidableEq

/-- Environment of one `process_jpg_jpeg` run: the outcome of every
external interaction, in the order the code consults them. -/
structure JpgEnv where
  stop1 : Bool
  outputExists : Bool
  tempFolderOk : Bool
  compressed : Bool
  stop2 : Bool
  apiResult : MetadataResult
  stop3 : Bool
  copyOk : Bool
  stop4 : Bool
  embeddingEnabled : Bool
  exifProceed : Bool
  exifStatus : String
deriving Repr, DecidableEq

/-- Embeds `process_jpg_jpeg` (format_jpg_jpeg_processing.py lines
28-141), returning the status string and the ordered effect trace.
Checkpoints in program order: stop check (line 33), skip-if-output-exists
(lines 36-37), temp folder (lines 39-42), compression (lines 44-56), stop
check (line 58), provider call (lines 68-76), result branching (lines
86-95), stop check (line 97), copy to output (lines 100-108), stop check
with output removal (lines 110-113), embed toggle (lines 115-117), EXIF
write and status mapping (lines 119-141). -/
def process_jpg_jpeg (env : JpgEnv) : String × List PipelineEffect :=
  if env.stop1 then ("stopped", [])
  else if env.outputExists then ("skipped_exists", [])
  else if ¬ env.tempFolderOk then ("failed_unknown", [])
  else
    let compEff := if env.compressed then [PipelineEffect.compressTemp] else []
    if env.stop2 then ("stopped", compEff)
    else
      let effs := compEff ++ [PipelineEffect.providerCall]
      match env.apiResult with
      | MetadataResult.stopped => ("stopped", effs)
      | MetadataResult.errorDict => ("failed_api", effs)
      | MetadataResult.invalid => ("failed_api", effs)
      | MetadataResult.metadataDict =>
        if env.stop3 then ("stopped", effs)
        else if ¬ env.copyOk then ("failed_copy", effs)
        else
          let effs2 := effs ++ [PipelineEffect.copyToOutput]
          if env.stop4 then ("stopped", effs2 ++ [PipelineEffect.removeOutput])
          else if ¬ env.embeddingEnabled then ("processed_no_exif", effs2)
          else
            let effs3 := effs2 ++ [PipelineEffect.writeExif]
            if ¬ env.exifProceed then
              ("failed_" ++ env.exifStatus,
                effs3 ++ if env.exifStatus ≠ "copy_failed"
                  then [PipelineEffect.removeOutput] else [])
            else if env.exifStatus = "exif_ok" then ("processed_exif", effs3)
            else if env.exifStatus = "exif_failed" then
              ("processed_exif_failed", effs3)
            else if env.exifStatus = "no_metadata" then
              ("processed_no_exif", effs3)
            else if env.exifStatus = "exiftool_not_found" then
              ("processed_exif_failed", effs3)
            else ("processed_unknown_exif_status", effs3)

/-- Environment of one `process_vector_file` run, in the order the code
consults the external world. -/
structure VectorEnv where
  stop1 : Bool
  outputExists : Bool
  knownVectorExt : Bool
  stop2 : Bool
  conversionOk : Bool
  compressed : Bool
  apiResult : MetadataResult
  stop3 : Bool
  copyOk : Bool
  embeddingEnabled : Bool
  exifProceed : Bool
  exifStatus : String
deriving Repr, DecidableEq

/-- Embeds `process_vector_file` (batch_processing.py lines 63-222):
stop check (lines 90-91), skip-if-output-exists (lines 93-94), extension
dispatch (lines 99-110), stop check (lines 112-113), conversion (lines
115-134), optional recompression (lines 135-148), provider call (lines
153-163), result branching (lines 172-181), stop check (lines 183-184),
copy plus EXIF mapping inside one try block (lines 186-222). -/
def process_vector_file (env : VectorEnv) : String × List PipelineEffect :=
  if env.stop1 then ("stopped", [])
  else if env.outputExists then ("skipped_exists", [])
  else if ¬ env.knownVectorExt then ("failed_unknown", [])
  else if env.stop2 then ("stopped", [])
  else if ¬ env.conversionOk then
    ("failed_conversion", [PipelineEffect.convertVector])
  else
    let compEff := if env.compressed then [PipelineEffect.compressTemp] else []
    let effs := PipelineEffect.convertVector :: compEff ++
      [PipelineEffect.providerCall]
    match env.apiResult with
    | MetadataResult.stopped => ("stopped", effs)
    | MetadataResult.errorDict => ("failed_api", effs)
    | MetadataResult.invalid => ("failed_api", effs)
    | MetadataResult.metadataDict =>
      if env.stop3 then ("stopped", effs)
      else if ¬ env.copyOk then ("failed_copy", effs)
      else
        let effs2 := effs ++ [PipelineEffect.copyToOutput]
        if ¬ env.embeddingEnabled then ("processed_no_exif", effs2)
        else
          let effs3 := effs2 ++ [PipelineEffect.writeExif]
          if ¬ env.exifProceed then ("failed_" ++ env.exifStatus, effs3)
          else if env.exifStatus = "exif_ok" then ("processed_exif", effs3)
          else if env.exifStatus = "exif_failed" then
            ("processed_exif_failed", effs3)
          else if env.exifStatus = "no_metadata" then
            ("processed_no_exif", effs3)
          else if env.exifStatus = "exiftool_not_found" then
            ("processed_exif_failed", effs3)
          else ("processed_unknown_exif_status", effs3)

/-- C6: when the output path for the input already exists and no stop is
pending, both per-file pipelines return `skipped_exists` immediately with
an empty effect trace — in particular no provider call is made and no
file (including the existing output) is touched — so re-running a batch
over a populated output directory is idempotent at the per-file level. -/
theorem C6_skip_when_output_exists :
    ∀ (envJ : JpgEnv) (envV : VectorEnv),
      envJ.stop1 = false → envJ.outputExists = true →
      envV.stop1 = false → envV.outputExists = true →
      process_jpg_jpeg envJ = ("skipped_exists", []) ∧
      process_vector_file envV = ("skipped_exists", []) := by
  intro envJ envV hj1 hj2 hv1 hv2
  constructor
  · rw [process_jpg_jpeg, hj1, hj2]
    simp
  · rw [process_vector_file, hv1, hv2]
    simp

/-- C6 witness: a concrete environment whose output file already exists. -/
theorem C6_witness :
    process_jpg_jpeg
      (JpgEnv.mk false true true false false MetadataResult.metadataDict
        false true false true true "exif_ok") = ("skipped_exists", []) ∧
    process_vector_file
      (VectorEnv.mk false true true false true false
        MetadataResult.metadataDict false true true true "exif_ok") =
      ("skipped_exists", []) :=
  C6_skip_when_output_exists
    (JpgEnv.mk false true true false false MetadataResult.metadataDict
      false true false true true "exif_ok")
    (VectorEnv.mk false true true false true false
      MetadataResult.metadataDict false true true true "exif_ok")
    rfl rfl rfl rfl

/-! ## Batch orchestrator (batch_processing.py lines 539-1126)

The model below embeds the control flow of `batch_process_files` that the
claims C2-C5 are about. Worker results are supplied by an oracle mapping
each file and its per-file invocation index to the status returned by
`process_single_file` (`none` embeds an invalid/absent result dict).
Completion order inside a batch is embedded as submission order; the
aggregate counters are order-independent. Input files are assumed to keep
existing while they are queued (the `os.path.exists` re-checks are
embedded as true); cancellation is embedded as a threshold `stopAt` on
the number of results handled so far, so every `should_stop()` poll of
the source maps to a `shouldStop` check at the same control point. -/

/-- Worker-result oracle: status of the per-file pipeline for a given
file on its n-th invocation (counting from 0). -/
abbrev ResultOracle := String → Nat → Option String

/-- Aggregate orchestrator state: the counters of batch_process_files
(lines 643-647), the `processed_files` set (line 662), the `failed_files`
list of (path, status, attempt) triples (line 649), plus instrumentation:
`tick` counts handled results (the clock cancellation is keyed to),
`calls` counts per-file pipeline invocations, and `obsLog` records the
counter sum after every handled result (the observation points at which
the progress callback fires). -/
structure OrchSt where
  processed : Int
  failed : Int
  skipped : Int
  stopped : Int
  tick : Nat
  processedFiles : List String
  failedFiles : List (String × String × Nat)
  calls : List (String × Nat)
  obsLog : List Int
deriving Repr, DecidableEq

/-- Sum of the four result counters of a state. -/
def sumCounters (st : OrchSt) : Int :=
  st.processed + st.failed + st.skipped + st.stopped

/-- Number of pipeline invocations recorded for a file. -/
def callsOf (st : OrchSt) (f : String) : Nat :=
  (st.calls.lookup f).getD 0

/-- Records one more pipeline invocation for a file. -/
def bumpCalls : List (String × Nat) → String → List (String × Nat)
  | [], f => [(f, 1)]
  | (g, n) :: rest, f =>
    if g = f then (g, n + 1) :: rest else (g, n) :: bumpCalls rest f

/-- Embeds the `should_stop()` poll (lines 563-570): the cancellation
signal is observed once `stopAt` results have been handled and stays
observed afterwards (the stop event is never cleared during a run). -/
def shouldStop (stopAt : Option Nat) (st : OrchSt) : Bool :=
  match stopAt with
  | none => false
  | some k => decide (k ≤ st.tick)

/-- Helper for `chunks`: structural recursion on a fuel argument that is
kept at least the list length, so that the kernel can evaluate it. -/
def chunksFuel (n : Nat) : Nat → List String → List (List String)
  | _, [] => []
  | 0, l => [l]
  | fuel + 1, f :: rest =>
    (f :: rest.take (n - 1)) :: chunksFuel n fuel (rest.drop (n - 1))

/-- Embeds the batch slicing `files_to_process[batch_index : batch_index
+ effective_num_workers]` (line 687) as the list of consecutive slices of
size `n` (the last one possibly shorter); `chunks_nil` and `chunks_cons`
below are its characteristic equations. -/
def chunks (n : Nat) (l : List String) : List (List String) :=
  chunksFuel n l.length l

theorem chunksFuel_congr (n : Nat) :
    ∀ (fuel1 : Nat) (l : List String) (fuel2 : Nat), l.length ≤ fuel1 →
      l.length ≤ fuel2 → chunksFuel n fuel1 l = chunksFuel n fuel2 l := by
  intro fuel1
  induction fuel1 with
  | zero =>
    intro l fuel2 h1 _
    have hl : l = [] := List.length_eq_zero.mp (Nat.le_zero.mp h1)
    subst hl
    cases fuel2 <;> rfl
  | succ a ih =>
    intro l fuel2 h1 h2
    cases l with
    | nil => cases fuel2 <;> rfl
    | cons f rest =>
      cases fuel2 with
      | zero => simp at h2
      | succ b =>
        have hd : (rest.drop (n - 1)).length ≤ rest.length := by
          simp [List.length_drop]
        have hr1 : rest.length ≤ a := by simpa using h1
        have hr2 : rest.length ≤ b := by simpa using h2
        rw [chunksFuel, chunksFuel]
        rw [ih (rest.drop (n - 1)) b (hd.trans hr1) (hd.trans hr2)]

theorem chunks_nil (n : Nat) : chunks n [] = [] := rfl

theorem chunks_cons (n : Nat) (f : String) (rest : List String) :
    chunks n (f :: rest) =
      (f :: rest.take (n - 1)) :: chunks n (rest.drop (n - 1)) := by
  show chunksFuel n (rest.length + 1) (f :: rest) = _
  rw [chunksFuel]
  rw [chunksFuel_congr n rest.length (rest.drop (n - 1))
    (rest.drop (n - 1)).length (by simp [List.length_drop]) (le_refl _)]
  rfl

/-- Embeds handling one completed future of the main pass (lines
748-809): bump the clock and the file's invocation count, then classify
the result into exactly one counter; a first-time failure is appended to
`failed_files` with attempt 1 (line 779); finally the observation point
(progress callback, lines 808-809). -/
def classifyResult (oracle : ResultOracle) (st : OrchSt) (f : String) : OrchSt :=
  let r := oracle f (callsOf st f)
  let st1 : OrchSt := { st with tick := st.tick + 1, calls := bumpCalls st.calls f }
  let st2 : OrchSt :=
    match r with
    | none => { st1 with failed := st1.failed + 1 }
    | some status =>
      if status = "processed_exif" ∨ status = "processed_no_exif" then
        { st1 with processed := st1.processed + 1 }
      else if status = "processed_exif_failed" ∨
          status = "processed_unknown_exif_status" then
        { st1 with processed := st1.processed + 1 }
      else if status = "skipped_exists" then
        { st1 with skipped := st1.skipped + 1 }
      else if status = "stopped" then
        { st1 with stopped := st1.stopped + 1 }
      else
        { st1 with failed := st1.failed + 1,
                   failedFiles := st1.failedFiles ++ [(f, status, 1)] }
  { st2 with obsLog := st2.obsLog ++ [sumCounters st2] }

/-- Embeds the submission loop of one main-pass batch (lines 688-732):
files already in `processed_files` are skipped, submitted files are added
to it; returns the submitted sublist. -/
def submitBatch (st : OrchSt) : List String → List String × OrchSt
  | [] => ([], st)
  | f :: rest =>
    if f ∈ st.processedFiles then submitBatch st rest
    else
      let r := submitBatch { st with processedFiles := f :: st.processedFiles } rest
      (f :: r.1, r.2)

/-- Embeds the `as_completed` result loop of one batch (lines 740-809):
results are handled until the batch is exhausted or cancellation is
observed; on cancellation the remaining futures are not handled and their
count is returned (they are cancelled, and the not-yet-done ones among
them are counted by the shutdown path, lines 817-830). -/
def classifyBatch (stopAt : Option Nat) (oracle : ResultOracle) :
    List String → OrchSt → OrchSt × Nat
  | [], st => (st, 0)
  | f :: rest, st =>
    if shouldStop stopAt st then (st, rest.length + 1)
    else classifyBatch stopAt oracle rest (classifyResult oracle st f)

/-- Embeds the main `while` loop over batches (lines 669-815): stop is
polled at the loop head (and, equivalently, through the cooldown sleep,
lines 670-684), each batch is submitted then awaited, and stop is polled
again after the batch (line 811). -/
def runBatches (stopAt : Option Nat) (oracle : ResultOracle) :
    List (List String) → OrchSt → OrchSt × Nat
  | [], st => (st, 0)
  | b :: bs, st =>
    if shouldStop stopAt st then (st, 0)
    else
      let s := submitBatch st b
      let c := classifyBatch stopAt oracle s.1 s.2
      if shouldStop stopAt c.1 then c
      else runBatches stopAt oracle bs c.1

/-- Initial orchestrator state (lines 643-663). -/
def initialOrchSt : OrchSt := OrchSt.mk 0 0 0 0 0 [] [] [] []

/-- Embeds the main pass with its cancellation shutdown (lines 665-830):
run the batches; if cancellation was observed, the submitted futures that
are still not done are cancelled and counted as stopped (lines 821-830).
Only futures of the interrupted batch can be unfinished; how many of them
are still not done when the shutdown path runs is scheduling-dependent,
so it enters as the parameter `notDone`, clamped by the number of
unhandled submitted futures. Files of batches never submitted are not
counted anywhere. -/
def mainPass (stopAt : Option Nat) (oracle : ResultOracle) (workers : Nat)
    (files : List String) (notDone : Nat) : OrchSt :=
  let r := runBatches stopAt oracle (chunks workers files) initialOrchSt
  if shouldStop stopAt r.1 then
    let st1 := { r.1 with stopped := r.1.stopped + Int.ofNat (min notDone r.2) }
    { st1 with obsLog := st1.obsLog ++ [sumCounters st1] }
  else r.1

/-- Per-round bookkeeping of the auto-retry loop: `retry_processed`,
`retry_failed`, `retry_stopped`, `retry_processed_files` and
`current_retry_failed_files` (lines 851-855). -/
structure RetryRound where
  rProcessed : Nat
  rFailed : Nat
  rStopped : Nat
  rSubmitted : List String
  crff : List String
deriving Repr, DecidableEq

/-- Embeds the success-status membership test of the retry loop
(lines 963-968). -/
def isSuccessStatus (s : String) : Bool :=
  s = "processed_exif" || s = "processed_no_exif" ||
  s = "processed_exif_failed" || s = "processed_unknown_exif_status"

/-- Embeds the `new_attempt` computation of the retry loop (lines
988-996): the attempt of the last `failed_files` entry for the file plus
one, defaulting to 1 when the file has no entry. -/
def newAttemptFor (ff : List (String × String × Nat)) (f : String) : Nat :=
  match (ff.filter (fun e => e.1 == f)).getLast? with
  | some e => e.2.2 + 1
  | none => 1

/-- Embeds the `failed_files` rebuild on a failed retry (lines 988-996):
every entry of the file gets the new status and its own attempt plus one;
other entries are kept. -/
def updateFailedFor (ff : List (String × String × Nat)) (f status : String) :
    List (String × String × Nat) :=
  ff.map (fun e => if e.1 = f then (e.1, status, e.2.2 + 1) else e)

/-- Embeds handling one retry future (lines 951-1020): success bumps
`processed_count`, decrements `failed_count` and drops the file from
`failed_files` (lines 969-976); a "stopped" status breaks out of the
batch (lines 982-985, flagged by the returned Bool); any other status
bumps the attempt and re-queues the file only if still retryable
(lines 986-999). -/
def retryHandleOne (oracle : ResultOracle) (st : OrchSt) (rr : RetryRound)
    (f : String) : OrchSt × RetryRound × Bool :=
  let r := oracle f (callsOf st f)
  let st1 : OrchSt := { st with tick := st.tick + 1, calls := bumpCalls st.calls f }
  match r with
  | none =>
    ({ st1 with obsLog := st1.obsLog ++ [sumCounters st1] },
      { rr with rFailed := rr.rFailed + 1, crff := rr.crff ++ [f] }, false)
  | some status =>
    if isSuccessStatus status then
      let st2 : OrchSt :=
        { st1 with
            processed := st1.processed + 1,
            failed := st1.failed - 1,
            failedFiles := st1.failedFiles.filter (fun e => e.1 != f) }
      ({ st2 with obsLog := st2.obsLog ++ [sumCounters st2] },
        { rr with rProcessed := rr.rProcessed + 1 }, false)
    else if status = "stopped" then
      ({ st1 with obsLog := st1.obsLog ++ [sumCounters st1] },
        { rr with rStopped := rr.rStopped + 1 }, true)
    else
      let na := newAttemptFor st1.failedFiles f
      let st2 : OrchSt :=
        { st1 with failedFiles := updateFailedFor st1.failedFiles f status }
      ({ st2 with obsLog := st2.obsLog ++ [sumCounters st2] },
        { rr with
            rFailed := rr.rFailed + 1,
            crff := rr.crff ++ if is_retryable status na then [f] else [] },
        false)

/-- Embeds the submission loop of one retry batch (lines 883-932). -/
def retrySubmitBatch (rr : RetryRound) : List String → List String × RetryRound
  | [] => ([], rr)
  | f :: rest =>
    if f ∈ rr.rSubmitted then retrySubmitBatch rr rest
    else
      let r := retrySubmitBatch { rr with rSubmitted := f :: rr.rSubmitted } rest
      (f :: r.1, r.2)

/-- Embeds the result loop of one retry batch (lines 943-1020): futures
are iterated in submission order; a stop poll precedes each result, and a
"stopped" status breaks the batch. -/
def retryClassifyBatch (stopAt : Option Nat) (oracle : ResultOracle) :
    List String → OrchSt → RetryRound → OrchSt × RetryRound
  | [], st, rr => (st, rr)
  | f :: rest, st, rr =>
    if shouldStop stopAt st then (st, rr)
    else
      let h := retryHandleOne oracle st rr f
      if h.2.2 then (h.1, h.2.1)
      else retryClassifyBatch stopAt oracle rest h.1 h.2.1

/-- Embeds the batch loop of one retry round (lines 865-1026). -/
def retryRunBatches (stopAt : Option Nat) (oracle : ResultOracle) :
    List (List String) → OrchSt → RetryRound → OrchSt × RetryRound
  | [], st, rr => (st, rr)
  | b :: bs, st, rr =>
    if shouldStop stopAt st then (st, rr)
    else
      let s := retrySubmitBatch rr b
      let c := retryClassifyBatch stopAt oracle s.1 st s.2
      if shouldStop stopAt c.1 then c
      else retryRunBatches stopAt oracle bs c.1 c.2

/-- Embeds the `current_status`/`current_attempt` lookup used when
rebuilding `retry_files` (lines 1031-1037): the first `failed_files`
entry of the file, defaulting to ("failed_unknown", 1). -/
def lookupFailed (ff : List (String × String × Nat)) (f : String) :
    String × Nat :=
  match ff.find? (fun e => e.1 == f) with
  | some e => (e.2.1, e.2.2)
  | none => ("failed_unknown", 1)

/-- Embeds the `retry_files` rebuild after a round (lines 1028-1040). -/
def rebuildRetryFiles (ff : List (String × String × Nat))
    (crff : List String) : List String :=
  crff.filter (fun f => is_retryable (lookupFailed ff f).1 (lookupFailed ff f).2)

/-- One full retry round (lines 847-1048): run the batches of the current
`retry_files`, then rebuild `retry_files`; also returns the round's
`retry_processed` counter. -/
def retryRound (stopAt : Option Nat) (oracle : ResultOracle) (workers : Nat)
    (st : OrchSt) (retryFiles : List String) : OrchSt × List String × Nat :=
  let r := retryRunBatches stopAt oracle (chunks workers retryFiles) st
    (RetryRound.mk 0 0 0 [] [])
  (r.1, rebuildRetryFiles r.1.failedFiles r.2.crff, r.2.rProcessed)

/-- Embeds the auto-retry `while` loop (lines 847-1060) with explicit
fuel: the loop runs while `retry_files` is non-empty and no stop is
observed; after a round it breaks early when the round made no progress
and no retryable file remains (lines 1050-1055) — when progress was zero
but retryable files remain it only logs and keeps looping (lines
1056-1060). -/
def retryLoop (stopAt : Option Nat) (oracle : ResultOracle) (workers : Nat) :
    Nat → OrchSt → List String → OrchSt × List String
  | 0, st, retryFiles => (st, retryFiles)
  | fuel + 1, st, retryFiles =>
    if retryFiles = [] then (st, retryFiles)
    else if shouldStop stopAt st then (st, retryFiles)
    else
      let r := retryRound stopAt oracle workers st retryFiles
      if r.2.2 = 0 ∧ r.2.1 = [] then (r.1, r.2.1)
      else retryLoop stopAt oracle workers fuel r.1 r.2.1

/-- Embeds the auto-retry gate and seeding (lines 834-845): retry runs
when enabled, failures exist and no stop is observed; the initial
`retry_files` are the failed files whose (status, attempt) is retryable. -/
def retryPhase (stopAt : Option Nat) (oracle : ResultOracle) (workers : Nat)
    (autoRetry : Bool) (fuel : Nat) (st : OrchSt) : OrchSt × List String :=
  if autoRetry && decide ((0 : Int) < st.failed) && !(shouldStop stopAt st) then
    retryLoop stopAt oracle workers fuel st
      ((st.failedFiles.filter (fun e => is_retryable e.2.1 e.2.2)).map
        (fun e => e.1))
  else (st, [])

/-- Full model of `batch_process_files` (lines 539-1126): main pass then
auto-retry phase; returns the final state and the remaining
`retry_files`. -/
def batch_process_files (stopAt : Option Nat) (oracle : ResultOracle)
    (workers : Nat) (files : List String) (notDone : Nat) (autoRetry : Bool)
    (fuel : Nat) : OrchSt × List String :=
  retryPhase stopAt oracle workers autoRetry fuel
    (mainPass stopAt oracle workers files notDone)

/-- C5 counterexample: 10 enumerated files, 2 workers, all pipeline
results succeed, and cancellation is observed right after the first
batch's 2 in-flight futures resolve (so 2 futures were in flight at the
signal, and 8 files were never dispatched). The shutdown path only counts
submitted-but-unfinished futures as stopped (batch_processing.py lines
821-830); the 8 never-dispatched files are not counted anywhere, so the
result has stopped = 0 (not stopped ≥ 8) and
processed+failed+skipped+stopped = 2 (not 10). -/
theorem C5_counterexample :
    (batch_process_files (some 2) (fun _ _ => some "processed_exif") 2
      ["f1", "f2", "f3", "f4", "f5", "f6", "f7", "f8", "f9", "f10"] 0 true
      1).1.stopped = 0 ∧
    (batch_process_files (some 2) (fun _ _ => some "processed_exif") 2
      ["f1", "f2", "f3", "f4", "f5", "f6", "f7", "f8", "f9", "f10"] 0 true
      1).1.processed = 2 ∧
    sumCounters (batch_process_files (some 2)
      (fun _ _ => some "processed_exif") 2
      ["f1", "f2", "f3", "f4", "f5", "f6", "f7", "f8", "f9", "f10"] 0 true
      1).1 = 2 ∧
    (["f1", "f2", "f3", "f4", "f5", "f6", "f7", "f8", "f9", "f10"] :
      List String).length = 10 := by
  decide

/-- C2 counterexample: one file failing with `failed_api` on every
attempt, auto-retry on. The first retry round makes zero net progress
(`retry_processed = 0`) while a retryable file remains (the rebuilt
`retry_files` is still the file), yet the loop does not stop there: the
run goes on to invoke the pipeline 5 times in total (it would be 2 if the
loop stopped at the first zero-progress round, as the claim states). -/
theorem C2_counterexample :
    (retryRound none (fun _ _ => some "failed_api") 1
      (mainPass none (fun _ _ => some "failed_api") 1 ["file1"] 0)
      ["file1"]).2.2 = 0 ∧
    (retryRound none (fun _ _ => some "failed_api") 1
      (mainPass none (fun _ _ => some "failed_api") 1 ["file1"] 0)
      ["file1"]).2.1 = ["file1"] ∧
    (batch_process_files none (fun _ _ => some "failed_api") 1 ["file1"] 0
      true 10).1.calls = [("file1", 5)] := by
  decide

/-- Shape of the orchestrator state in the constant-`failed_api` scenario
after the file has been attempted k times: one failed file at attempt k. -/
def c3State (f : String) (k : Nat) : OrchSt :=
  OrchSt.mk 0 1 0 0 k [f] [(f, "failed_api", k)] [(f, k)] (List.replicate k 1)

theorem chunks_singleton (n : Nat) (x : String) : chunks n [x] = [[x]] := by
  rw [chunks_cons]
  simp [chunks_nil]

theorem c3_mainPass (f : String) (workers notDone : Nat) :
    mainPass none (fun _ _ => some "failed_api") workers [f] notDone =
      c3State f 1 := by
  rw [mainPass, chunks_singleton]
  simp [runBatches, submitBatch, classifyBatch, classifyResult, shouldStop,
    initialOrchSt, callsOf, bumpCalls, sumCounters, c3State, List.lookup]

theorem c3_round (f : String) (workers k : Nat) :
    retryRound none (fun _ _ => some "failed_api") workers (c3State f k) [f] =
      (c3State f (k + 1), if k + 1 < 5 then [f] else [], 0) := by
  rw [retryRound, chunks_singleton]
  simp only [retryRunBatches, retryClassifyBatch, retrySubmitBatch,
    retryHandleOne, shouldStop, c3State, callsOf, bumpCalls, newAttemptFor,
    updateFailedFor, lookupFailed, rebuildRetryFiles, sumCounters,
    isSuccessStatus, List.lookup, List.mem_nil_iff, if_false, if_pos,
    beq_self_eq_true, List.filter, List.find?, List.getLast?, is_retryable,
    NON_RETRYABLE_STATUSES, RETRYABLE_STATUSES]
  by_cases h5 : k + 1 < 5 <;>
    simp [h5, is_retryable, NON_RETRYABLE_STATUSES, RETRYABLE_STATUSES,
      List.lookup, rebuildRetryFiles, lookupFailed, List.replicate_succ']

theorem retryLoop_step (stopAt : Option Nat) (oracle : ResultOracle)
    (workers n : Nat) (st : OrchSt) (rf : List String) (st1 : OrchSt)
    (rf1 : List String) (rp : Nat) (hrf : rf ≠ [])
    (hstop : shouldStop stopAt st = false)
    (hround : retryRound stopAt oracle workers st rf = (st1, rf1, rp))
    (hcont : ¬ (rp = 0 ∧ rf1 = [])) :
    retryLoop stopAt oracle workers (n + 1) st rf =
      retryLoop stopAt oracle workers n st1 rf1 := by
  rw [retryLoop, if_neg hrf, hstop, if_neg (by simp)]
  rw [hround]
  simp only []
  rw [if_neg hcont]

theorem retryLoop_last (stopAt : Option Nat) (oracle : ResultOracle)
    (workers n : Nat) (st : OrchSt) (rf : List String) (st1 : OrchSt)
    (rf1 : List String) (rp : Nat) (hrf : rf ≠ [])
    (hstop : shouldStop stopAt st = false)
    (hround : retryRound stopAt oracle workers st rf = (st1, rf1, rp))
    (hdone : rp = 0 ∧ rf1 = []) :
    retryLoop stopAt oracle workers (n + 1) st rf = (st1, rf1) := by
  rw [retryLoop, if_neg hrf, hstop, if_neg (by simp)]
  rw [hround]
  simp only []
  rw [if_pos hdone]

/-- C3: for any file whose pipeline returns `failed_api` on every
invocation, with auto-retry enabled and no cancellation, the orchestrator
invokes the pipeline for that file exactly 5 times (1 initial pass plus 4
retry rounds, `max_attempts` for `failed_api` being 5); afterwards the
file sits in the final failed set at attempt 5, the remaining retry queue
is empty (the file is not resubmitted), and the final counters show it as
failed, for any worker count and any fuel at least 4. -/
theorem C3_exactly_five_attempts :
    ∀ (f : String) (workers notDone m : Nat),
      batch_process_files none (fun _ _ => some "failed_api") workers [f]
          notDone true (m + 4) = (c3State f 5, []) ∧
      (batch_process_files none (fun _ _ => some "failed_api") workers [f]
          notDone true (m + 4)).1.calls = [(f, 5)] ∧
      (batch_process_files none (fun _ _ => some "failed_api") workers [f]
          notDone true (m + 4)).1.failedFiles = [(f, "failed_api", 5)] ∧
      (batch_process_files none (fun _ _ => some "failed_api") workers [f]
          notDone true (m + 4)).2 = [] ∧
      (batch_process_files none (fun _ _ => some "failed_api") workers [f]
          notDone true (m + 4)).1.failed = 1 ∧
      (batch_process_files none (fun _ _ => some "failed_api") workers [f]
          notDone true (m + 4)).1.processed = 0 := by
  intro f workers notDone m
  have hgate : batch_process_files none (fun _ _ => some "failed_api") workers
      [f] notDone true (m + 4) =
      retryLoop none (fun _ _ => some "failed_api") workers (m + 4)
        (c3State f 1) [f] := by
    rw [batch_process_files, c3_mainPass, retryPhase]
    simp [shouldStop, c3State, is_retryable, NON_RETRYABLE_STATUSES,
      RETRYABLE_STATUSES, List.lookup]
  have r1 := c3_round f workers 1
  have r2 := c3_round f workers 2
  have r3 := c3_round f workers 3
  have r4 := c3_round f workers 4
  norm_num at r1 r2 r3 r4
  have l1 := retryLoop_step none (fun _ _ => some "failed_api") workers (m + 3)
    (c3State f 1) [f] (c3State f 2) [f] 0 (by simp) rfl r1 (by simp)
  have l2 := retryLoop_step none (fun _ _ => some "failed_api") workers (m + 2)
    (c3State f 2) [f] (c3State f 3) [f] 0 (by simp) rfl r2 (by simp)
  have l3 := retryLoop_step none (fun _ _ => some "failed_api") workers (m + 1)
    (c3State f 3) [f] (c3State f 4) [f] 0 (by simp) rfl r3 (by simp)
  have l4 := retryLoop_last none (fun _ _ => some "failed_api") workers m
    (c3State f 4) [f] (c3State f 5) [] 0 (by simp) rfl r4 ⟨rfl, rfl⟩
  have hfull : batch_process_files none (fun _ _ => some "failed_api") workers
      [f] notDone true (m + 4) = (c3State f 5, []) :=
    ((((hgate.trans l1).trans l2).trans l3).trans l4)
  refine ⟨hfull, ?_, ?_, ?_, ?_, ?_⟩ <;> rw [hfull] <;> rfl

/-! ## Conservation invariants of the orchestrator model -/

/-- Every logged observation is bounded by the current counter sum. -/
def obsBounded (st : OrchSt) : Prop :=
  ∀ o ∈ st.obsLog, o ≤ sumCounters st

theorem classifyResult_spec (oracle : ResultOracle) (st : OrchSt) (f : String) :
    sumCounters (classifyResult oracle st f) = sumCounters st + 1 ∧
    (classifyResult oracle st f).tick = st.tick + 1 ∧
    (classifyResult oracle st f).processedFiles = st.processedFiles ∧
    (classifyResult oracle st f).obsLog =
      st.obsLog ++ [sumCounters (classifyResult oracle st f)] := by
  rw [classifyResult]
  cases oracle f (callsOf st f) with
  | none =>
    refine ⟨by simp [sumCounters]; omega, rfl, rfl, by simp [sumCounters]⟩
  | some status =>
    by_cases h1 : status = "processed_exif" ∨ status = "processed_no_exif" <;>
      by_cases h2 : status = "processed_exif_failed" ∨
        status = "processed_unknown_exif_status" <;>
      by_cases h3 : status = "skipped_exists" <;>
      by_cases h4 : status = "stopped" <;>
      simp [h1, h2, h3, h4, sumCounters] <;> omega

theorem classifyResult_obsBounded (oracle : ResultOracle) (st : OrchSt)
    (f : String) (h : obsBounded st) :
    obsBounded (classifyResult oracle st f) := by
  rcases classifyResult_spec oracle st f with ⟨hsum, _, _, hobs⟩
  intro o ho
  rw [hobs] at ho
  rcases List.mem_append.mp ho with ho1 | ho1
  · exact (h o ho1).trans (by omega)
  · have : o = sumCounters (classifyResult oracle st f) := by simpa using ho1
    omega

theorem submitBatch_spec : ∀ (b : List String) (st : OrchSt),
    (submitBatch st b).2 =
      { st with processedFiles :=
          (submitBatch st b).1.reverse ++ st.processedFiles } ∧
    (submitBatch st b).1.length ≤ b.length := by
  intro b
  induction b with
  | nil => intro st; simp [submitBatch]
  | cons f rest ih =>
    intro st
    by_cases h : f ∈ st.processedFiles
    · rw [submitBatch, if_pos h]
      rcases ih st with ⟨h1, h2⟩
      exact ⟨h1, h2.trans (by simp)⟩
    · rw [submitBatch, if_neg h]
      rcases ih { st with processedFiles := f :: st.processedFiles } with ⟨h1, h2⟩
      constructor
      · rw [h1]
        simp
      · simpa using h2

theorem classifyBatch_spec (stopAt : Option Nat) (oracle : ResultOracle) :
    ∀ (l : List String) (st : OrchSt),
      sumCounters st = (st.tick : Int) →
      st.tick + l.length = st.processedFiles.length →
      sumCounters (classifyBatch stopAt oracle l st).1 =
        ((classifyBatch stopAt oracle l st).1.tick : Int) ∧
      (classifyBatch stopAt oracle l st).1.tick +
        (classifyBatch stopAt oracle l st).2 =
        (classifyBatch stopAt oracle l st).1.processedFiles.length ∧
      (classifyBatch stopAt oracle l st).1.processedFiles =
        st.processedFiles ∧
      (shouldStop stopAt (classifyBatch stopAt oracle l st).1 = false →
        (classifyBatch stopAt oracle l st).2 = 0) ∧
      (obsBounded st → obsBounded (classifyBatch stopAt oracle l st).1) := by
  intro l
  induction l with
  | nil =>
    intro st h1 h2
    refine ⟨h1, by simpa using h2, rfl, fun _ => rfl, fun h => h⟩
  | cons f rest ih =>
    intro st h1 h2
    by_cases hs : shouldStop stopAt st = true
    · rw [classifyBatch, if_pos hs]
      refine ⟨h1, by simpa using h2, rfl, ?_, fun h => h⟩
      intro hns
      rw [hs] at hns
      exact absurd hns (by simp)
    · have hs2 : shouldStop stopAt st = false := by
        cases h : shouldStop stopAt st
        · rfl
        · exact absurd h hs
      rw [classifyBatch, if_neg (by simp [hs2])]
      rcases classifyResult_spec oracle st f with ⟨csum, ctick, cpf, _⟩
      have h1n : sumCounters (classifyResult oracle st f) =
          ((classifyResult oracle st f).tick : Int) := by
        rw [csum, ctick, h1]
        push_cast
        ring
      have h2n : (classifyResult oracle st f).tick + rest.length =
          (classifyResult oracle st f).processedFiles.length := by
        rw [ctick, cpf]
        simp only [List.length_cons] at h2
        omega
      rcases ih (classifyResult oracle st f) h1n h2n with ⟨i1, i2, i3, i4, i5⟩
      exact ⟨i1, i2, i3.trans cpf, i4,
        fun h => i5 (classifyResult_obsBounded oracle st f h)⟩

theorem runBatches_spec (stopAt : Option Nat) (oracle : ResultOracle) :
    ∀ (bs : List (List String)) (st : OrchSt),
      sumCounters st = (st.tick : Int) →
      st.tick = st.processedFiles.length →
      sumCounters (runBatches stopAt oracle bs st).1 =
        ((runBatches stopAt oracle bs st).1.tick : Int) ∧
      (runBatches stopAt oracle bs st).1.tick +
        (runBatches stopAt oracle bs st).2 =
        (runBatches stopAt oracle bs st).1.processedFiles.length ∧
      (runBatches stopAt oracle bs st).1.processedFiles.length ≤
        st.processedFiles.length + (bs.map List.length).sum ∧
      (obsBounded st → obsBounded (runBatches stopAt oracle bs st).1) := by
  intro bs
  induction bs with
  | nil =>
    intro st h1 h2
    refine ⟨h1, by simpa using h2, by simp [runBatches], fun h => h⟩
  | cons b rest ih =>
    intro st h1 h2
    by_cases hs : shouldStop stopAt st = true
    · rw [runBatches, if_pos hs]
      refine ⟨h1, by simpa using h2, by simp, fun h => h⟩
    · have hs2 : shouldStop stopAt st = false := by
        cases h : shouldStop stopAt st
        · rfl
        · exact absurd h hs
      rw [runBatches, if_neg (by simp [hs2])]
      rcases submitBatch_spec b st with ⟨sb, sblen⟩
      have hsub1 : sumCounters (submitBatch st b).2 =
          (((submitBatch st b).2).tick : Int) := by
        rw [sb]; exact h1
      have hsub2 : ((submitBatch st b).2).tick + (submitBatch st b).1.length =
          ((submitBatch st b).2).processedFiles.length := by
        rw [sb]
        simp [h2]
        omega
      rcases classifyBatch_spec stopAt oracle (submitBatch st b).1
        (submitBatch st b).2 hsub1 hsub2 with ⟨c1, c2, c3, c4, c5⟩
      have hpfc : (classifyBatch stopAt oracle (submitBatch st b).1
          (submitBatch st b).2).1.processedFiles.length ≤
          st.processedFiles.length + b.length := by
        rw [c3, sb]
        simp only [List.length_append, List.length_reverse]
        omega
      by_cases hcs : shouldStop stopAt
          (classifyBatch stopAt oracle (submitBatch st b).1
            (submitBatch st b).2).1 = true
      · rw [if_pos hcs]
        refine ⟨c1, c2, hpfc.trans ?_, fun h => c5 (by rw [sb]; exact h)⟩
        simp
      · have hcs2 : shouldStop stopAt (classifyBatch stopAt oracle
            (submitBatch st b).1 (submitBatch st b).2).1 = false := by
          cases h : shouldStop stopAt (classifyBatch stopAt oracle
            (submitBatch st b).1 (submitBatch st b).2).1
          · rfl
          · exact absurd h hcs
        rw [if_neg (by simp [hcs2])]
        have hu0 := c4 hcs2
        have htick : (classifyBatch stopAt oracle (submitBatch st b).1
            (submitBatch st b).2).1.tick =
            (classifyBatch stopAt oracle (submitBatch st b).1
              (submitBatch st b).2).1.processedFiles.length := by
          omega
        rcases ih (classifyBatch stopAt oracle (submitBatch st b).1
          (submitBatch st b).2).1 c1 htick with ⟨i1, i2, i3, i4⟩
        refine ⟨i1, i2, i3.trans ?_, fun h => i4 (c5 (by rw [sb]; exact h))⟩
        simp
        omega

theorem chunks_join (n : Nat) : ∀ (k : Nat) (l : List String),
    l.length ≤ k → (chunks n l).join = l := by
  intro k
  induction k with
  | zero =>
    intro l hl
    have hnil : l = [] := List.length_eq_zero.mp (Nat.le_zero.mp hl)
    subst hnil
    simp [chunks_nil]
  | succ k ih =>
    intro l hl
    cases l with
    | nil => simp [chunks_nil]
    | cons f rest =>
      have hd : (rest.drop (n - 1)).length ≤ k := by
        simp only [List.length_cons] at hl
        simp [List.length_drop]
        omega
      rw [chunks_cons]
      simp [ih (rest.drop (n - 1)) hd]

theorem chunks_length_sum (n : Nat) (l : List String) :
    ((chunks n l).map List.length).sum = l.length := by
  have := congrArg List.length (chunks_join n l.length l (le_refl _))
  simpa [List.length_join] using this

/-- Shutdown state after a cancelled main pass (lines 817-830 plus the
final observation): the not-yet-done submitted futures are counted as
stopped. -/
def cleanupState (r : OrchSt × Nat) (notDone : Nat) : OrchSt :=
  let st1 := { r.1 with stopped := r.1.stopped + Int.ofNat (min notDone r.2) }
  { st1 with obsLog := st1.obsLog ++ [sumCounters st1] }

theorem mainPass_cases (stopAt : Option Nat) (oracle : ResultOracle)
    (workers : Nat) (files : List String) (notDone : Nat) :
    (shouldStop stopAt (runBatches stopAt oracle (chunks workers files)
        initialOrchSt).1 = false ∧
      mainPass stopAt oracle workers files notDone =
        (runBatches stopAt oracle (chunks workers files) initialOrchSt).1) ∨
    (shouldStop stopAt (runBatches stopAt oracle (chunks workers files)
        initialOrchSt).1 = true ∧
      mainPass stopAt oracle workers files notDone =
        cleanupState (runBatches stopAt oracle (chunks workers files)
          initialOrchSt) notDone) := by
  by_cases h : shouldStop stopAt (runBatches stopAt oracle
      (chunks workers files) initialOrchSt).1 = true
  · right
    refine ⟨h, ?_⟩
    rw [mainPass]
    simp [h, cleanupState]
  · left
    have h2 : shouldStop stopAt (runBatches stopAt oracle
        (chunks workers files) initialOrchSt).1 = false := by
      cases hb : shouldStop stopAt (runBatches stopAt oracle
        (chunks workers files) initialOrchSt).1
      · rfl
      · exact absurd hb h
    refine ⟨h2, ?_⟩
    rw [mainPass]
    simp [h2]

theorem cleanupState_sum (r : OrchSt × Nat) (notDone : Nat) :
    sumCounters (cleanupState r notDone) =
      sumCounters r.1 + Int.ofNat (min notDone r.2) := by
  simp [cleanupState, sumCounters]
  ring

theorem cleanupState_obs (r : OrchSt × Nat) (notDone : Nat) :
    (cleanupState r notDone).obsLog =
      r.1.obsLog ++ [sumCounters (cleanupState r notDone)] := by
  simp [cleanupState, sumCounters]

theorem mainPass_sum_le (stopAt : Option Nat) (oracle : ResultOracle)
    (workers : Nat) (files : List String) (notDone : Nat) :
    sumCounters (mainPass stopAt oracle workers files notDone) ≤
      (files.length : Int) ∧
    obsBounded (mainPass stopAt oracle workers files notDone) := by
  rcases runBatches_spec stopAt oracle (chunks workers files) initialOrchSt
    (by simp [initialOrchSt, sumCounters]) (by simp [initialOrchSt])
    with ⟨r1, r2, r3, r4⟩
  have hobs0 : obsBounded initialOrchSt := by
    intro o ho
    simp [initialOrchSt] at ho
  have hobsR := r4 hobs0
  have hpf : (runBatches stopAt oracle (chunks workers files)
      initialOrchSt).1.processedFiles.length ≤ files.length := by
    have h3 := r3
    rw [chunks_length_sum] at h3
    simpa [initialOrchSt] using h3
  have hbound : sumCounters (runBatches stopAt oracle (chunks workers files)
      initialOrchSt).1 + ((runBatches stopAt oracle (chunks workers files)
        initialOrchSt).2 : Int) ≤ (files.length : Int) := by
    rw [r1]
    have h2i : ((runBatches stopAt oracle (chunks workers files)
        initialOrchSt).1.tick : Int) + ((runBatches stopAt oracle
          (chunks workers files) initialOrchSt).2 : Int) =
        ((runBatches stopAt oracle (chunks workers files)
          initialOrchSt).1.processedFiles.length : Int) := by
      exact_mod_cast r2
    rw [h2i]
    exact_mod_cast hpf
  have hu : (0 : Int) ≤ ((runBatches stopAt oracle (chunks workers files)
      initialOrchSt).2 : Int) := by positivity
  rcases mainPass_cases stopAt oracle workers files notDone with
    ⟨_, heq⟩ | ⟨_, heq⟩
  · rw [heq]
    exact ⟨by omega, hobsR⟩
  · rw [heq]
    have hsum := cleanupState_sum (runBatches stopAt oracle
      (chunks workers files) initialOrchSt) notDone
    have hmin : (Int.ofNat (min notDone (runBatches stopAt oracle
        (chunks workers files) initialOrchSt).2)) ≤
        ((runBatches stopAt oracle (chunks workers files)
          initialOrchSt).2 : Int) := by
      simp [Int.ofNat_le]
    have hminpos : (0 : Int) ≤ Int.ofNat (min notDone (runBatches stopAt
        oracle (chunks workers files) initialOrchSt).2) := Int.ofNat_nonneg _
    constructor
    · omega
    · intro o ho
      rw [cleanupState_obs] at ho
      rcases List.mem_append.mp ho with ho1 | ho1
      · have := hobsR o ho1
        omega
      · have : o = sumCounters (cleanupState (runBatches stopAt oracle
            (chunks workers files) initialOrchSt) notDone) := by
          simpa using ho1
        omega

theorem retryHandleOne_spec (oracle : ResultOracle) (st : OrchSt)
    (rr : RetryRound) (f : String) :
    sumCounters (retryHandleOne oracle st rr f).1 = sumCounters st ∧
    (retryHandleOne oracle st rr f).1.obsLog =
      st.obsLog ++ [sumCounters (retryHandleOne oracle st rr f).1] := by
  rw [retryHandleOne]
  cases oracle f (callsOf st f) with
  | none => exact ⟨by simp [sumCounters], by simp [sumCounters]⟩
  | some status =>
    dsimp only
    by_cases h1 : isSuccessStatus status = true
    · rw [if_pos h1]
      constructor
      · simp [sumCounters]
      · simp [sumCounters]
    · rw [if_neg h1]
      by_cases h2 : status = "stopped"
      · rw [if_pos h2]
        exact ⟨by simp [sumCounters], by simp [sumCounters]⟩
      · rw [if_neg h2]
        exact ⟨by simp [sumCounters], by simp [sumCounters]⟩

theorem retryHandleOne_obsBounded (oracle : ResultOracle) (st : OrchSt)
    (rr : RetryRound) (f : String) (h : obsBounded st) :
    obsBounded (retryHandleOne oracle st rr f).1 := by
  rcases retryHandleOne_spec oracle st rr f with ⟨hsum, hobs⟩
  intro o ho
  rw [hobs] at ho
  rcases List.mem_append.mp ho with ho1 | ho1
  · rw [hsum]
    exact h o ho1
  · have : o = sumCounters (retryHandleOne oracle st rr f).1 := by
      simpa using ho1
    omega

theorem retryClassifyBatch_spec (stopAt : Option Nat) (oracle : ResultOracle) :
    ∀ (l : List String) (st : OrchSt) (rr : RetryRound),
      sumCounters (retryClassifyBatch stopAt oracle l st rr).1 =
        sumCounters st ∧
      (obsBounded st →
        obsBounded (retryClassifyBatch stopAt oracle l st rr).1) := by
  intro l
  induction l with
  | nil => intro st rr; exact ⟨rfl, fun h => h⟩
  | cons f rest ih =>
    intro st rr
    by_cases hs : shouldStop stopAt st = true
    · rw [retryClassifyBatch, if_pos hs]
      exact ⟨rfl, fun h => h⟩
    · rw [retryClassifyBatch, if_neg (by simp [Bool.not_eq_true] at hs ⊢; exact hs)]
      rcases retryHandleOne_spec oracle st rr f with ⟨hsum, _⟩
      by_cases hb : (retryHandleOne oracle st rr f).2.2 = true
      · rw [if_pos hb]
        exact ⟨hsum, fun h => retryHandleOne_obsBounded oracle st rr f h⟩
      · rw [if_neg hb]
        rcases ih (retryHandleOne oracle st rr f).1
          (retryHandleOne oracle st rr f).2.1 with ⟨i1, i2⟩
        exact ⟨i1.trans hsum,
          fun h => i2 (retryHandleOne_obsBounded oracle st rr f h)⟩

theorem retryRunBatches_spec (stopAt : Option Nat) (oracle : ResultOracle) :
    ∀ (bs : List (List String)) (st : OrchSt) (rr : RetryRound),
      sumCounters (retryRunBatches stopAt oracle bs st rr).1 =
        sumCounters st ∧
      (obsBounded st →
        obsBounded (retryRunBatches stopAt oracle bs st rr).1) := by
  intro bs
  induction bs with
  | nil => intro st rr; exact ⟨rfl, fun h => h⟩
  | cons b rest ih =>
    intro st rr
    by_cases hs : shouldStop stopAt st = true
    · rw [retryRunBatches, if_pos hs]
      exact ⟨rfl, fun h => h⟩
    · rw [retryRunBatches, if_neg (by simp [Bool.not_eq_true] at hs ⊢; exact hs)]
      rcases retryClassifyBatch_spec stopAt oracle
        (retrySubmitBatch rr b).1 st (retrySubmitBatch rr b).2 with ⟨c1, c2⟩
      by_cases hcs : shouldStop stopAt (retryClassifyBatch stopAt oracle
          (retrySubmitBatch rr b).1 st (retrySubmitBatch rr b).2).1 = true
      · rw [if_pos hcs]
        exact ⟨c1, c2⟩
      · rw [if_neg hcs]
        rcases ih (retryClassifyBatch stopAt oracle (retrySubmitBatch rr b).1
          st (retrySubmitBatch rr b).2).1 (retryClassifyBatch stopAt oracle
            (retrySubmitBatch rr b).1 st (retrySubmitBatch rr b).2).2
          with ⟨i1, i2⟩
        exact ⟨i1.trans c1, fun h => i2 (c2 h)⟩

theorem retryRound_spec (stopAt : Option Nat) (oracle : ResultOracle)
    (workers : Nat) (st : OrchSt) (rf : List String) :
    sumCounters (retryRound stopAt oracle workers st rf).1 =
      sumCounters st ∧
    (obsBounded st → obsBounded (retryRound stopAt oracle workers st rf).1) := by
  rw [retryRound]
  exact retryRunBatches_spec stopAt oracle (chunks workers rf) st
    (RetryRound.mk 0 0 0 [] [])

theorem retryLoop_spec (stopAt : Option Nat) (oracle : ResultOracle)
    (workers : Nat) :
    ∀ (fuel : Nat) (st : OrchSt) (rf : List String),
      sumCounters (retryLoop stopAt oracle workers fuel st rf).1 =
        sumCounters st ∧
      (obsBounded st →
        obsBounded (retryLoop stopAt oracle workers fuel st rf).1) := by
  intro fuel
  induction fuel with
  | zero => intro st rf; exact ⟨rfl, fun h => h⟩
  | succ fuel ih =>
    intro st rf
    by_cases h1 : rf = []
    · rw [retryLoop, if_pos h1]
      exact ⟨rfl, fun h => h⟩
    · rw [retryLoop, if_neg h1]
      by_cases h2 : shouldStop stopAt st = true
      · rw [if_pos h2]
        exact ⟨rfl, fun h => h⟩
      · rw [if_neg h2]
        rcases retryRound_spec stopAt oracle workers st rf with ⟨r1, r2⟩
        by_cases h3 : (retryRound stopAt oracle workers st rf).2.2 = 0 ∧
            (retryRound stopAt oracle workers st rf).2.1 = []
        · rw [if_pos h3]
          exact ⟨r1, r2⟩
        · rw [if_neg h3]
          rcases ih (retryRound stopAt oracle workers st rf).1
            (retryRound stopAt oracle workers st rf).2.1 with ⟨i1, i2⟩
          exact ⟨i1.trans r1, fun h => i2 (r2 h)⟩

theorem retryPhase_spec (stopAt : Option Nat) (oracle : ResultOracle)
    (workers : Nat) (autoRetry : Bool) (fuel : Nat) (st : OrchSt) :
    sumCounters (retryPhase stopAt oracle workers autoRetry fuel st).1 =
      sumCounters st ∧
    (obsBounded st →
      obsBounded (retryPhase stopAt oracle workers autoRetry fuel st).1) := by
  rw [retryPhase]
  by_cases h : (autoRetry && decide ((0 : Int) < st.failed) &&
      !(shouldStop stopAt st)) = true
  · rw [if_pos h]
    exact retryLoop_spec stopAt oracle workers fuel st _
  · rw [if_neg h]
    exact ⟨rfl, fun hh => hh⟩

/-- C5 (amended): under cancellation the shutdown path counts as stopped
only the submitted-but-unfinished futures of the interrupted batch; files
never dispatched are not counted in any category, so the aggregate
counters of `batch_process_files` satisfy only the conservation
inequality processed+failed+skipped+stopped ≤ total_files under every
cancellation schedule (equality can fail, as the counterexample shows
with stopped = 0 and sum 2 of 10). -/
theorem C5_amended_sum_le_total :
    ∀ (stopAt : Option Nat) (oracle : ResultOracle) (workers : Nat)
      (files : List String) (notDone : Nat) (autoRetry : Bool) (fuel : Nat),
      sumCounters (batch_process_files stopAt oracle workers files notDone
        autoRetry fuel).1 ≤ (files.length : Int) := by
  intro stopAt oracle workers files notDone autoRetry fuel
  rw [batch_process_files]
  rcases retryPhase_spec stopAt oracle workers autoRetry fuel
    (mainPass stopAt oracle workers files notDone) with ⟨h1, _⟩
  rw [h1]
  exact (mainPass_sum_le stopAt oracle workers files notDone).1

theorem shouldStop_none (st : OrchSt) : shouldStop none st = false := rfl

theorem submitBatch_all : ∀ (b : List String) (st : OrchSt), b.Nodup →
    (∀ x ∈ b, x ∉ st.processedFiles) → (submitBatch st b).1 = b := by
  intro b
  induction b with
  | nil => intro st _ _; rfl
  | cons f rest ih =>
    intro st hnd hout
    have hf : f ∉ st.processedFiles := hout f (List.mem_cons_self f rest)
    rw [submitBatch, if_neg hf]
    have hrest : ∀ x ∈ rest,
        x ∉ ({ st with processedFiles := f :: st.processedFiles } :
          OrchSt).processedFiles := by
      intro x hx
      simp only [List.mem_cons]
      push_neg
      constructor
      · intro hxf
        subst hxf
        exact (List.nodup_cons.mp hnd).1 hx
      · exact hout x (List.mem_cons_of_mem f hx)
    dsimp only
    rw [ih { st with processedFiles := f :: st.processedFiles }
      (List.nodup_cons.mp hnd).2 hrest]

theorem classifyBatch_none_tick (oracle : ResultOracle) :
    ∀ (l : List String) (st : OrchSt),
      (classifyBatch none oracle l st).1.tick = st.tick + l.length ∧
      (classifyBatch none oracle l st).2 = 0 := by
  intro l
  induction l with
  | nil => intro st; exact ⟨by simp [classifyBatch], rfl⟩
  | cons f rest ih =>
    intro st
    rw [classifyBatch]
    rw [if_neg (by rw [shouldStop_none]; simp)]
    rcases ih (classifyResult oracle st f) with ⟨i1, i2⟩
    rcases classifyResult_spec oracle st f with ⟨_, ctick, _, _⟩
    refine ⟨?_, i2⟩
    rw [i1, ctick]
    simp [List.length_cons]
    omega

theorem runBatches_none_tick (oracle : ResultOracle) :
    ∀ (bs : List (List String)) (st : OrchSt), bs.join.Nodup →
      (∀ x ∈ bs.join, x ∉ st.processedFiles) →
      (runBatches none oracle bs st).1.tick = st.tick + bs.join.length := by
  intro bs
  induction bs with
  | nil => intro st _ _; simp [runBatches]
  | cons b rest ih =>
    intro st hnd hout
    rw [runBatches, if_neg (by rw [shouldStop_none]; simp)]
    have hjoin : (b :: rest).join = b ++ rest.join := rfl
    rw [hjoin] at hnd hout
    have hbnd : b.Nodup := (List.nodup_append.mp hnd).1
    have hbout : ∀ x ∈ b, x ∉ st.processedFiles :=
      fun x hx => hout x (List.mem_append.mpr (Or.inl hx))
    have hsuball := submitBatch_all b st hbnd hbout
    rcases submitBatch_spec b st with ⟨sb, _⟩
    rcases classifyBatch_none_tick oracle (submitBatch st b).1
      (submitBatch st b).2 with ⟨c1, _⟩
    have hcls : ∀ (l : List String) (s : OrchSt),
        (classifyBatch none oracle l s).1.processedFiles =
          s.processedFiles := by
      intro l
      induction l with
      | nil => intro s; rfl
      | cons g grest ihg =>
        intro s
        rw [classifyBatch, if_neg (by rw [shouldStop_none]; simp)]
        rw [ihg (classifyResult oracle s g)]
        exact (classifyResult_spec oracle s g).2.2.1
    rw [if_neg (by rw [shouldStop_none]; simp)]
    have hrout : ∀ x ∈ rest.join,
        x ∉ (classifyBatch none oracle (submitBatch st b).1
          (submitBatch st b).2).1.processedFiles := by
      intro x hx
      rw [hcls, sb]
      simp only [List.mem_append, List.mem_reverse]
      push_neg
      constructor
      · rw [hsuball]
        intro hxb
        exact absurd hx (List.disjoint_left.mp
          ((List.nodup_append.mp hnd).2.2) hxb)
      · exact hout x (List.mem_append.mpr (Or.inr hx))
    rw [ih (classifyBatch none oracle (submitBatch st b).1
      (submitBatch st b).2).1 (List.nodup_append.mp hnd).2.1 hrout]
    rw [c1, hsuball]
    have : (submitBatch st b).2.tick = st.tick := by rw [sb]
    rw [this]
    simp
    omega

/-- C4: for a duplicate-free enumeration, at every observation point of a
run (after each handled result, including retry rounds and the
cancellation shutdown) the counter sum processed+failed+skipped+stopped
is at most total_files, and at normal completion (no cancellation) the
sum equals total_files — every enumerated file lands in exactly one
category of the returned result. -/
theorem C4_conservation :
    ∀ (stopAt : Option Nat) (oracle : ResultOracle) (workers : Nat)
      (files : List String) (notDone : Nat) (autoRetry : Bool) (fuel : Nat),
      files.Nodup →
      (∀ o ∈ (batch_process_files stopAt oracle workers files notDone
        autoRetry fuel).1.obsLog, o ≤ (files.length : Int)) ∧
      (stopAt = none →
        sumCounters (batch_process_files stopAt oracle workers files notDone
          autoRetry fuel).1 = (files.length : Int)) := by
  intro stopAt oracle workers files notDone autoRetry fuel hnd
  constructor
  · intro o ho
    have hobs : obsBounded (batch_process_files stopAt oracle workers files
        notDone autoRetry fuel).1 := by
      rw [batch_process_files]
      exact (retryPhase_spec stopAt oracle workers autoRetry fuel
        (mainPass stopAt oracle workers files notDone)).2
        (mainPass_sum_le stopAt oracle workers files notDone).2
    have hsum : sumCounters (batch_process_files stopAt oracle workers files
        notDone autoRetry fuel).1 ≤ (files.length : Int) := by
      rw [batch_process_files]
      rw [(retryPhase_spec stopAt oracle workers autoRetry fuel
        (mainPass stopAt oracle workers files notDone)).1]
      exact (mainPass_sum_le stopAt oracle workers files notDone).1
    exact (hobs o ho).trans hsum
  · rintro rfl
    rw [batch_process_files]
    rw [(retryPhase_spec none oracle workers autoRetry fuel
      (mainPass none oracle workers files notDone)).1]
    rcases mainPass_cases none oracle workers files notDone with
      ⟨_, heq⟩ | ⟨hstop, _⟩
    · rw [heq]
      rcases runBatches_spec none oracle (chunks workers files) initialOrchSt
        (by simp [initialOrchSt, sumCounters]) (by simp [initialOrchSt])
        with ⟨r1, _, _, _⟩
      rw [r1]
      have htick := runBatches_none_tick oracle (chunks workers files)
        initialOrchSt
        (by rw [chunks_join workers files.length files (le_refl _)]; exact hnd)
        (by intro x _; simp [initialOrchSt])
      rw [htick, chunks_join workers files.length files (le_refl _)]
      simp [initialOrchSt]
    · rw [shouldStop_none] at hstop
      exact absurd hstop (by simp)

/-- C4 witness: three files all failing, auto-retry on, no cancellation. -/
theorem C4_witness :
    (∀ o ∈ (batch_process_files none (fun _ _ => some "failed_api") 2
      ["a", "b", "c"] 0 true 20).1.obsLog, o ≤ ((3 : Nat) : Int)) ∧
    ((none : Option Nat) = none →
      sumCounters (batch_process_files none (fun _ _ => some "failed_api") 2
        ["a", "b", "c"] 0 true 20).1 = ((3 : Nat) : Int)) :=
  C4_conservation none (fun _ _ => some "failed_api") 2 ["a", "b", "c"] 0
    true 20 (by decide)

/-! ## Termination of the auto-retry loop -/

/-- Keys (file paths) of a `failed_files` list. -/
def keysOf (ff : List (String × String × Nat)) : List String :=
  ff.map (fun e => e.1)

theorem find_filter_ne (f g : String) (h : f ≠ g) :
    ∀ ff : List (String × String × Nat),
      (ff.filter (fun e => e.1 != g)).find? (fun e => e.1 == f) =
        ff.find? (fun e => e.1 == f) := by
  intro ff
  induction ff with
  | nil => rfl
  | cons e rest ih =>
    by_cases he : e.1 = g
    · have hef : (e.1 == f) = false :=
        beq_eq_false_iff_ne.mpr (by rw [he]; exact Ne.symm h)
      rw [List.filter_cons]
      simp only [he, bne_self_eq_false, Bool.false_eq_true, if_false]
      rw [ih, List.find?_cons]
      simp [hef]
    · have hkeep : (e.1 != g) = true := bne_iff_ne.mpr he
      rw [List.filter_cons]
      simp only [hkeep, if_true]
      rw [List.find?_cons, List.find?_cons]
      cases hef : (e.1 == f) <;> simp [hef, ih]

theorem find_update_ne (f g status : String) (h : f ≠ g) :
    ∀ ff : List (String × String × Nat),
      (updateFailedFor ff g status).find? (fun e => e.1 == f) =
        ff.find? (fun e => e.1 == f) := by
  intro ff
  induction ff with
  | nil => rfl
  | cons e rest ih =>
    rw [updateFailedFor, List.map_cons]
    by_cases he : e.1 = g
    · have hef : (e.1 == f) = false :=
        beq_eq_false_iff_ne.mpr (by rw [he]; exact Ne.symm h)
      simp only [if_pos he]
      rw [List.find?_cons, List.find?_cons]
      simp only [hef]
      simpa [updateFailedFor] using ih
    · simp only [if_neg he]
      rw [List.find?_cons, List.find?_cons]
      cases hef : (e.1 == f) <;> simp [hef] <;>
        simpa [updateFailedFor] using ih

theorem find_update_self (f status : String) :
    ∀ ff : List (String × String × Nat),
      (updateFailedFor ff f status).find? (fun e => e.1 == f) =
        (ff.find? (fun e => e.1 == f)).map
          (fun e => (e.1, status, e.2.2 + 1)) := by
  intro ff
  induction ff with
  | nil => rfl
  | cons e rest ih =>
    rw [updateFailedFor, List.map_cons]
    by_cases he : e.1 = f
    · simp only [if_pos he]
      rw [List.find?_cons, List.find?_cons]
      simp only [beq_iff_eq.mpr he]
      rfl
    · simp only [if_neg he]
      rw [List.find?_cons, List.find?_cons]
      simp only [beq_eq_false_iff_ne.mpr he]
      simpa [updateFailedFor] using ih

theorem lookupFailed_filter_ne (f g : String) (h : f ≠ g)
    (ff : List (String × String × Nat)) :
    lookupFailed (ff.filter (fun e => e.1 != g)) f = lookupFailed ff f := by
  rw [lookupFailed, lookupFailed, find_filter_ne f g h ff]

theorem lookupFailed_update_ne (f g status : String) (h : f ≠ g)
    (ff : List (String × String × Nat)) :
    lookupFailed (updateFailedFor ff g status) f = lookupFailed ff f := by
  rw [lookupFailed, lookupFailed, find_update_ne f g status h ff]

theorem lookupFailed_update_self (f status : String)
    (ff : List (String × String × Nat)) (hmem : f ∈ keysOf ff) :
    lookupFailed (updateFailedFor ff f status) f =
      (status, (lookupFailed ff f).2 + 1) := by
  rw [lookupFailed, lookupFailed, find_update_self f status ff]
  rcases hk : ff.find? (fun e => e.1 == f) with _ | e
  · exfalso
    rcases List.mem_map.mp hmem with ⟨e0, he0, he0f⟩
    have := List.find?_eq_none.mp hk e0 he0
    simp [he0f] at this
  · rw [hk]
    rfl

theorem keysOf_update (g status : String)
    (ff : List (String × String × Nat)) :
    keysOf (updateFailedFor ff g status) = keysOf ff := by
  rw [updateFailedFor, keysOf, keysOf, List.map_map]
  congr 1
  funext e
  by_cases he : e.1 = g <;> simp [he]

theorem keysOf_filter_sublist (g : String)
    (ff : List (String × String × Nat)) :
    List.Sublist (keysOf (ff.filter (fun e => e.1 != g))) (keysOf ff) :=
  (List.filter_sublist ff).map _

theorem mem_keysOf_filter (f g : String) (h : f ≠ g)
    (ff : List (String × String × Nat)) (hmem : f ∈ keysOf ff) :
    f ∈ keysOf (ff.filter (fun e => e.1 != g)) := by
  rcases List.mem_map.mp hmem with ⟨e, he, hef⟩
  exact List.mem_map.mpr ⟨e, List.mem_filter.mpr ⟨he, by
    subst hef
    exact bne_iff_ne.mpr h⟩, hef⟩

theorem mem_keysOf_update (f g status : String)
    (ff : List (String × String × Nat)) (hmem : f ∈ keysOf ff) :
    f ∈ keysOf (updateFailedFor ff g status) := by
  rw [keysOf_update]
  exact hmem

theorem newAttemptFor_eq (f : String) :
    ∀ ff : List (String × String × Nat), (keysOf ff).Nodup →
      f ∈ keysOf ff → newAttemptFor ff f = (lookupFailed ff f).2 + 1 := by
  intro ff
  induction ff with
  | nil => intro _ h; simp [keysOf] at h
  | cons e rest ih =>
    intro hnd hmem
    by_cases he : e.1 = f
    · have hfr : f ∉ keysOf rest := by
        rw [keysOf, List.map_cons] at hnd
        exact he ▸ (List.nodup_cons.mp hnd).1
      have hfilter : rest.filter (fun x => x.1 == f) = [] := by
        rw [List.filter_eq_nil_iff]
        intro x hx
        intro hxf
        exact hfr (List.mem_map.mpr ⟨x, hx, beq_iff_eq.mp hxf⟩)
      rw [newAttemptFor, lookupFailed, List.filter_cons, List.find?_cons]
      simp only [beq_iff_eq.mpr he, if_pos, hfilter]
      rfl
    · have hmem2 : f ∈ keysOf rest := by
        rcases List.mem_map.mp hmem with ⟨x, hx, hxf⟩
        rcases List.mem_cons.mp hx with rfl | hx2
        · exact absurd hxf he
        · exact List.mem_map.mpr ⟨x, hx2, hxf⟩
      have hnd2 : (keysOf rest).Nodup := by
        rw [keysOf, List.map_cons] at hnd
        exact (List.nodup_cons.mp hnd).2
      have hbe : (e.1 == f) = false := beq_eq_false_iff_ne.mpr he
      rw [newAttemptFor, lookupFailed, List.filter_cons, List.find?_cons]
      simp only [hbe, Bool.false_eq_true, if_false]
      rw [← newAttemptFor, ← lookupFailed]
      exact ih hnd2 hmem2

theorem lookup_mem_of_eq_some :
    ∀ (l : List (String × String × Nat)) (s : String) (v : String × Nat),
      l.lookup s = some v → (s, v) ∈ l := by
  intro l
  induction l with
  | nil => intro s v hv; simp [List.lookup] at hv
  | cons e rest ihl =>
    intro s v hv
    rw [List.lookup] at hv
    cases hse : (s == e.1) with
    | false =>
      rw [hse] at hv
      exact List.mem_cons_of_mem e (ihl s v hv)
    | true =>
      rw [hse] at hv
      have h1 : s = e.1 := beq_iff_eq.mp hse
      have h2 : e.2 = v := Option.some_inj.mp hv
      rw [List.mem_cons]
      left
      rw [h1, ← h2]

theorem is_retryable_lt_five (s : String) (a : Nat)
    (h : is_retryable s a = true) : a < 5 := by
  rw [is_retryable] at h
  split at h
  · exact absurd h (by simp)
  · split at h
    · next entry heq =>
      have hmem2 := lookup_mem_of_eq_some RETRYABLE_STATUSES s entry heq
      have hall : ∀ p ∈ RETRYABLE_STATUSES, p.2.2 ≤ 5 := by decide
      have hle : entry.2 ≤ 5 := hall (s, entry) hmem2
      exact Nat.lt_of_lt_of_le (of_decide_eq_true h) hle
    · exact absurd h (by simp)

theorem lookupFailed_found (ff : List (String × String × Nat)) (f : String)
    (h : is_retryable (lookupFailed ff f).1 (lookupFailed ff f).2 = true) :
    f ∈ keysOf ff := by
  rcases hk : ff.find? (fun e => e.1 == f) with _ | e
  · rw [lookupFailed, hk] at h
    exact absurd h (by decide)
  · have hmem := List.mem_of_find?_eq_some hk
    have hpred := List.find?_some hk
    have hef : e.1 = f := beq_iff_eq.mp hpred
    exact List.mem_map.mpr ⟨e, hmem, hef⟩

/-- Well-formedness of the retry state: `failed_files` keys are distinct,
`retry_files` is duplicate-free, and every queued file has a retryable
`failed_files` entry. -/
def retryWF (st : OrchSt) (rf : List String) : Prop :=
  (keysOf st.failedFiles).Nodup ∧ rf.Nodup ∧
  ∀ f ∈ rf, f ∈ keysOf st.failedFiles ∧
    is_retryable (lookupFailed st.failedFiles f).1
      (lookupFailed st.failedFiles f).2 = true

/-- Termination measure of the retry loop: total remaining attempt budget
of the queued files (every max_attempts entry is at most 5). -/
def retryMeasure (st : OrchSt) (rf : List String) : Nat :=
  (rf.map (fun f => 5 - (lookupFailed st.failedFiles f).2)).sum

/-- Invariant carried through one retry round, relative to the round
start state `st0` and round queue `rf0`. -/
def roundInv (st0 : OrchSt) (rf0 : List String) (st : OrchSt)
    (rr : RetryRound) : Prop :=
  (keysOf st.failedFiles).Nodup ∧
  rr.crff.Nodup ∧
  ∀ f ∈ rr.crff, f ∈ rf0 ∧
    (lookupFailed st.failedFiles f).2 =
      (lookupFailed st0.failedFiles f).2 + 1

theorem retryHandleOne_inv (st0 : OrchSt) (rf0 : List String)
    (oracle : ResultOracle) (st : OrchSt) (rr : RetryRound) (f : String)
    (hinv : roundInv st0 rf0 st rr) (hfc : f ∉ rr.crff) (hf0 : f ∈ rf0)
    (hpr : lookupFailed st.failedFiles f = lookupFailed st0.failedFiles f)
    (hmem : f ∈ keysOf st.failedFiles)
    (horacle : oracle f (callsOf st f) ≠ none) :
    roundInv st0 rf0 (retryHandleOne oracle st rr f).1
      (retryHandleOne oracle st rr f).2.1 ∧
    (∀ y ∈ (retryHandleOne oracle st rr f).2.1.crff,
      y ∈ rr.crff ∨ y = f) ∧
    (∀ y, y ≠ f →
      lookupFailed (retryHandleOne oracle st rr f).1.failedFiles y =
        lookupFailed st.failedFiles y ∧
      (y ∈ keysOf st.failedFiles →
        y ∈ keysOf (retryHandleOne oracle st rr f).1.failedFiles)) := by
  rcases hinv with ⟨hnd, hcnd, hcmem⟩
  rw [retryHandleOne]
  rcases ho : oracle f (callsOf st f) with _ | status
  · exact absurd ho horacle
  · dsimp only
    by_cases h1 : isSuccessStatus status = true
    · rw [if_pos h1]
      refine ⟨⟨(keysOf_filter_sublist f st.failedFiles).nodup hnd, hcnd, ?_⟩,
        fun y hy => Or.inl hy, ?_⟩
      · intro g hg
        have hgf : g ≠ f := fun hgf => hfc (hgf ▸ hg)
        rcases hcmem g hg with ⟨hg0, hglk⟩
        exact ⟨hg0, by rw [lookupFailed_filter_ne g f hgf]; exact hglk⟩
      · intro y hy
        exact ⟨lookupFailed_filter_ne y f hy st.failedFiles,
          fun hm => mem_keysOf_filter y f hy st.failedFiles hm⟩
    · rw [if_neg h1]
      by_cases h2 : status = "stopped"
      · rw [if_pos h2]
        exact ⟨⟨hnd, hcnd, hcmem⟩, fun y hy => Or.inl hy,
          fun y _ => ⟨rfl, fun hm => hm⟩⟩
      · rw [if_neg h2]
        by_cases hc : is_retryable status (newAttemptFor st.failedFiles f) = true
        · rw [if_pos hc]
          refine ⟨⟨?_, ?_, ?_⟩, ?_, ?_⟩
          · rw [keysOf_update]
            exact hnd
          · exact List.Nodup.append hcnd (List.nodup_singleton f)
              (List.disjoint_singleton.mpr hfc)
          · intro g hg
            rcases List.mem_append.mp hg with hg1 | hg1
            · have hgf : g ≠ f := fun hgf => hfc (hgf ▸ hg1)
              rcases hcmem g hg1 with ⟨hg0, hglk⟩
              exact ⟨hg0, by
                rw [lookupFailed_update_ne g f status hgf]
                exact hglk⟩
            · have hgf : g = f := by simpa using hg1
              subst hgf
              refine ⟨hf0, ?_⟩
              rw [lookupFailed_update_self g status st.failedFiles hmem]
              rw [hpr]
          · intro y hy
            rcases List.mem_append.mp hy with hy1 | hy1
            · exact Or.inl hy1
            · exact Or.inr (by simpa using hy1)
          · intro y hy
            exact ⟨lookupFailed_update_ne y f status hy st.failedFiles,
              fun hm => mem_keysOf_update y f status st.failedFiles hm⟩
        · rw [if_neg hc]
          refine ⟨⟨?_, ?_, ?_⟩, ?_, ?_⟩
          · rw [keysOf_update]
            exact hnd
          · simpa using hcnd
          · intro g hg
            have hg1 : g ∈ rr.crff := by simpa using hg
            have hgf : g ≠ f := fun hgf => hfc (hgf ▸ hg1)
            rcases hcmem g hg1 with ⟨hg0, hglk⟩
            exact ⟨hg0, by
              rw [lookupFailed_update_ne g f status hgf]
              exact hglk⟩
          · intro y hy
            exact Or.inl (by simpa using hy)
          · intro y hy
            exact ⟨lookupFailed_update_ne y f status hy st.failedFiles,
              fun hm => mem_keysOf_update y f status st.failedFiles hm⟩

theorem retrySubmitBatch_spec : ∀ (b : List String) (rr : RetryRound),
    (retrySubmitBatch rr b).2.crff = rr.crff ∧
    (∀ x ∈ (retrySubmitBatch rr b).1, x ∈ b) ∧
    (∀ x ∈ (retrySubmitBatch rr b).1, x ∉ rr.rSubmitted) ∧
    (retrySubmitBatch rr b).1.Nodup := by
  intro b
  induction b with
  | nil => intro rr; exact ⟨rfl, by simp [retrySubmitBatch], by simp [retrySubmitBatch], by simp [retrySubmitBatch]⟩
  | cons f rest ih =>
    intro rr
    by_cases h : f ∈ rr.rSubmitted
    · rw [retrySubmitBatch, if_pos h]
      rcases ih rr with ⟨i1, i2, i3, i4⟩
      exact ⟨i1, fun x hx => List.mem_cons_of_mem f (i2 x hx), i3, i4⟩
    · rw [retrySubmitBatch, if_neg h]
      rcases ih { rr with rSubmitted := f :: rr.rSubmitted } with ⟨i1, i2, i3, i4⟩
      dsimp only
      refine ⟨i1, ?_, ?_, ?_⟩
      · intro x hx
        rcases List.mem_cons.mp hx with rfl | hx2
        · exact List.mem_cons_self x rest
        · exact List.mem_cons_of_mem f (i2 x hx2)
      · intro x hx
        rcases List.mem_cons.mp hx with rfl | hx2
        · exact h
        · have := i3 x hx2
          simp only [List.mem_cons] at this
          push_neg at this
          exact this.2
      · refine List.nodup_cons.mpr ⟨?_, i4⟩
        intro hf
        have := i3 f hf
        simp at this

theorem retryClassifyBatch_inv (st0 : OrchSt) (rf0 : List String)
    (stopAt : Option Nat) (oracle : ResultOracle)
    (horacle : ∀ g n, oracle g n ≠ none) :
    ∀ (l : List String) (st : OrchSt) (rr : RetryRound),
      roundInv st0 rf0 st rr → l.Nodup →
      (∀ x ∈ l, x ∉ rr.crff) → (∀ x ∈ l, x ∈ rf0) →
      (∀ x ∈ l, lookupFailed st.failedFiles x =
        lookupFailed st0.failedFiles x ∧ x ∈ keysOf st.failedFiles) →
      roundInv st0 rf0 (retryClassifyBatch stopAt oracle l st rr).1
        (retryClassifyBatch stopAt oracle l st rr).2 ∧
      (∀ y ∈ (retryClassifyBatch stopAt oracle l st rr).2.crff,
        y ∈ rr.crff ∨ y ∈ l) ∧
      (∀ y, y ∉ l →
        lookupFailed (retryClassifyBatch stopAt oracle l st rr).1.failedFiles
          y = lookupFailed st.failedFiles y ∧
        (y ∈ keysOf st.failedFiles →
          y ∈ keysOf (retryClassifyBatch stopAt oracle l st rr).1.failedFiles)) := by
  intro l
  induction l with
  | nil =>
    intro st rr hinv _ _ _ _
    exact ⟨hinv, fun y hy => Or.inl hy, fun y _ => ⟨rfl, fun hm => hm⟩⟩
  | cons f rest ih =>
    intro st rr hinv hnd hcr hrf0 hpr
    by_cases hs : shouldStop stopAt st = true
    · rw [retryClassifyBatch, if_pos hs]
      exact ⟨hinv, fun y hy => Or.inl hy, fun y _ => ⟨rfl, fun hm => hm⟩⟩
    · rw [retryClassifyBatch, if_neg hs]
      have hf := hpr f (List.mem_cons_self f rest)
      rcases retryHandleOne_inv st0 rf0 oracle st rr f hinv
        (hcr f (List.mem_cons_self f rest)) (hrf0 f (List.mem_cons_self f rest))
        hf.1 hf.2 (horacle f (callsOf st f)) with ⟨h1, h2, h3⟩
      by_cases hb : (retryHandleOne oracle st rr f).2.2 = true
      · rw [if_pos hb]
        refine ⟨h1, ?_, ?_⟩
        · intro y hy
          rcases h2 y hy with hy1 | hy1
          · exact Or.inl hy1
          · exact Or.inr (hy1 ▸ List.mem_cons_self f rest)
        · intro y hy
          have hyf : y ≠ f := fun hh => hy (hh ▸ List.mem_cons_self f rest)
          exact h3 y hyf
      · rw [if_neg hb]
        have hndr := (List.nodup_cons.mp hnd).2
        have hfr : f ∉ rest := (List.nodup_cons.mp hnd).1
        have hcr2 : ∀ x ∈ rest, x ∉ (retryHandleOne oracle st rr f).2.1.crff := by
          intro x hx hxc
          rcases h2 x hxc with hx1 | hx1
          · exact hcr x (List.mem_cons_of_mem f hx) hx1
          · exact hfr (hx1 ▸ hx)
        have hrf02 : ∀ x ∈ rest, x ∈ rf0 :=
          fun x hx => hrf0 x (List.mem_cons_of_mem f hx)
        have hpr2 : ∀ x ∈ rest,
            lookupFailed (retryHandleOne oracle st rr f).1.failedFiles x =
              lookupFailed st0.failedFiles x ∧
            x ∈ keysOf (retryHandleOne oracle st rr f).1.failedFiles := by
          intro x hx
          have hxf : x ≠ f := fun hh => hfr (hh ▸ hx)
          rcases h3 x hxf with ⟨h3a, h3b⟩
          rcases hpr x (List.mem_cons_of_mem f hx) with ⟨hpa, hpb⟩
          exact ⟨h3a.trans hpa, h3b hpb⟩
        rcases ih (retryHandleOne oracle st rr f).1
          (retryHandleOne oracle st rr f).2.1 h1 hndr hcr2 hrf02 hpr2
          with ⟨i1, i2, i3⟩
        refine ⟨i1, ?_, ?_⟩
        · intro y hy
          rcases i2 y hy with hy1 | hy1
          · rcases h2 y hy1 with hy2 | hy2
            · exact Or.inl hy2
            · exact Or.inr (hy2 ▸ List.mem_cons_self f rest)
          · exact Or.inr (List.mem_cons_of_mem f hy1)
        · intro y hy
          have hyf : y ≠ f := fun hh => hy (hh ▸ List.mem_cons_self f rest)
          have hyr : y ∉ rest := fun hh => hy (List.mem_cons_of_mem f hh)
          rcases i3 y hyr with ⟨i3a, i3b⟩
          rcases h3 y hyf with ⟨h3a, h3b⟩
          exact ⟨i3a.trans h3a, fun hm => i3b (h3b hm)⟩

theorem retryRunBatches_inv (st0 : OrchSt) (rf0 : List String)
    (stopAt : Option Nat) (oracle : ResultOracle)
    (horacle : ∀ g n, oracle g n ≠ none) :
    ∀ (bs : List (List String)) (st : OrchSt) (rr : RetryRound),
      roundInv st0 rf0 st rr → bs.join.Nodup →
      (∀ z ∈ bs.join, z ∉ rr.crff) → (∀ z ∈ bs.join, z ∈ rf0) →
      (∀ z ∈ bs.join, lookupFailed st.failedFiles z =
        lookupFailed st0.failedFiles z ∧ z ∈ keysOf st.failedFiles) →
      roundInv st0 rf0 (retryRunBatches stopAt oracle bs st rr).1
        (retryRunBatches stopAt oracle bs st rr).2 := by
  intro bs
  induction bs with
  | nil => intro st rr hinv _ _ _ _; exact hinv
  | cons b rest ih =>
    intro st rr hinv hnd hcr hrf0 hpr
    by_cases hs : shouldStop stopAt st = true
    · rw [retryRunBatches, if_pos hs]
      exact hinv
    · rw [retryRunBatches, if_neg hs]
      have hjoin : (b :: rest).join = b ++ rest.join := rfl
      rw [hjoin] at hnd hcr hrf0 hpr
      rcases retrySubmitBatch_spec b rr with ⟨s1, s2, _, s4⟩
      have hinv2 : roundInv st0 rf0 st (retrySubmitBatch rr b).2 := by
        rcases hinv with ⟨a1, a2, a3⟩
        rw [roundInv, s1]
        exact ⟨a1, a2, a3⟩
      rcases retryClassifyBatch_inv st0 rf0 stopAt oracle horacle
        (retrySubmitBatch rr b).1 st (retrySubmitBatch rr b).2 hinv2 s4
        (by
          intro x hx
          rw [s1]
          exact hcr x (List.mem_append.mpr (Or.inl (s2 x hx))))
        (fun x hx => hrf0 x (List.mem_append.mpr (Or.inl (s2 x hx))))
        (fun x hx => hpr x (List.mem_append.mpr (Or.inl (s2 x hx))))
        with ⟨c1, c2, c3⟩
      by_cases hcs : shouldStop stopAt (retryClassifyBatch stopAt oracle
          (retrySubmitBatch rr b).1 st (retrySubmitBatch rr b).2).1 = true
      · rw [if_pos hcs]
        exact c1
      · rw [if_neg hcs]
        have hdisj : ∀ z ∈ rest.join, z ∉ b := by
          intro z hz hzb
          have := List.nodup_append.mp hnd
          exact this.2.2 hzb hz
        apply ih _ _ c1 (List.nodup_append.mp hnd).2.1
        · intro z hz
          intro hzc
          rcases c2 z hzc with hz1 | hz1
          · rw [s1] at hz1
            exact hcr z (List.mem_append.mpr (Or.inr hz)) hz1
          · exact hdisj z hz (s2 z hz1)
        · exact fun z hz => hrf0 z (List.mem_append.mpr (Or.inr hz))
        · intro z hz
          have hznotin : z ∉ (retrySubmitBatch rr b).1 :=
            fun hh => hdisj z hz (s2 z hh)
          rcases c3 z hznotin with ⟨c3a, c3b⟩
          rcases hpr z (List.mem_append.mpr (Or.inr hz)) with ⟨hpa, hpb⟩
          exact ⟨c3a.trans hpa, c3b hpb⟩

theorem sum_sublist_le : ∀ {l1 l2 : List Nat}, List.Sublist l1 l2 →
    l1.sum ≤ l2.sum := by
  intro l1 l2 h
  induction h with
  | slnil => exact le_refl 0
  | cons a _ ih =>
    rw [List.sum_cons]
    omega
  | cons₂ a _ ih =>
    rw [List.sum_cons, List.sum_cons]
    omega

theorem sum_map_le_of_subset (g : String → Nat) (l1 l2 : List String)
    (hnd : l1.Nodup) (hsub : l1 ⊆ l2) :
    (l1.map g).sum ≤ (l2.map g).sum := by
  rcases List.subperm_of_subset hnd hsub with ⟨l3, hperm, hsl⟩
  calc (l1.map g).sum = (l3.map g).sum := ((hperm.map g).sum_eq).symm
    _ ≤ (l2.map g).sum := sum_sublist_le (hsl.map g)

theorem sum_map_lt_of_pointwise (g1 g2 : String → Nat) :
    ∀ l : List String, l ≠ [] → (∀ x ∈ l, g1 x < g2 x) →
      (l.map g1).sum < (l.map g2).sum := by
  intro l
  induction l with
  | nil => intro h _; exact absurd rfl h
  | cons x rest ih =>
    intro _ hpt
    rw [List.map_cons, List.map_cons, List.sum_cons, List.sum_cons]
    have hx := hpt x (List.mem_cons_self x rest)
    cases rest with
    | nil => simpa using hx
    | cons y ys =>
      have hrest := ih (by simp)
        (fun z hz => hpt z (List.mem_cons_of_mem x hz))
      omega

theorem retryRound_progress (stopAt : Option Nat) (oracle : ResultOracle)
    (workers : Nat) (st : OrchSt) (rf : List String)
    (horacle : ∀ g n, oracle g n ≠ none) (hwf : retryWF st rf) :
    retryWF (retryRound stopAt oracle workers st rf).1
      (retryRound stopAt oracle workers st rf).2.1 ∧
    ((retryRound stopAt oracle workers st rf).2.1 ≠ [] →
      retryMeasure (retryRound stopAt oracle workers st rf).1
        (retryRound stopAt oracle workers st rf).2.1 <
      retryMeasure st rf) := by
  rcases hwf with ⟨hknd, hrfnd, hrfmem⟩
  have hjoin : (chunks workers rf).join = rf :=
    chunks_join workers rf.length rf (le_refl _)
  have hinv := retryRunBatches_inv st rf stopAt oracle horacle
    (chunks workers rf) st (RetryRound.mk 0 0 0 [] [])
    ⟨hknd, List.nodup_nil, by intro f hf; simp at hf⟩
    (by rw [hjoin]; exact hrfnd)
    (by intro z _; simp)
    (by rw [hjoin]; exact fun z hz => hz)
    (by rw [hjoin]; exact fun z hz => ⟨rfl, (hrfmem z hz).1⟩)
  rw [retryRound]
  dsimp only
  rcases hinv with ⟨a1, a2, a3⟩
  set st1 := (retryRunBatches stopAt oracle (chunks workers rf) st
    (RetryRound.mk 0 0 0 [] [])).1 with hst1
  set crf := (retryRunBatches stopAt oracle (chunks workers rf) st
    (RetryRound.mk 0 0 0 [] [])).2.crff with hcrf
  have hrf1sub : ∀ f ∈ rebuildRetryFiles st1.failedFiles crf, f ∈ crf := by
    intro f hf
    exact List.mem_of_mem_filter hf
  have hrf1ret : ∀ f ∈ rebuildRetryFiles st1.failedFiles crf,
      is_retryable (lookupFailed st1.failedFiles f).1
        (lookupFailed st1.failedFiles f).2 = true := by
    intro f hf
    rw [rebuildRetryFiles] at hf
    simpa using List.of_mem_filter hf
  constructor
  · refine ⟨a1, List.Nodup.filter _ a2, ?_⟩
    intro f hf
    exact ⟨lookupFailed_found st1.failedFiles f (hrf1ret f hf), hrf1ret f hf⟩
  · intro hne
    rw [retryMeasure, retryMeasure]
    have hsub : rebuildRetryFiles st1.failedFiles crf ⊆ rf := by
      intro f hf
      exact (a3 f (hrf1sub f hf)).1
    have hnd1 : (rebuildRetryFiles st1.failedFiles crf).Nodup :=
      List.Nodup.filter _ a2
    have hstep1 : ((rebuildRetryFiles st1.failedFiles crf).map
        (fun f => 5 - (lookupFailed st1.failedFiles f).2)).sum <
        ((rebuildRetryFiles st1.failedFiles crf).map
          (fun f => 5 - (lookupFailed st.failedFiles f).2)).sum := by
      apply sum_map_lt_of_pointwise _ _ _ hne
      intro f hf
      have hlk := (a3 f (hrf1sub f hf)).2
      have hlt5 := is_retryable_lt_five _ _ (hrf1ret f hf)
      omega
    have hstep2 : ((rebuildRetryFiles st1.failedFiles crf).map
        (fun f => 5 - (lookupFailed st.failedFiles f).2)).sum ≤
        (rf.map (fun f => 5 - (lookupFailed st.failedFiles f).2)).sum :=
      sum_map_le_of_subset _ _ _ hnd1 hsub
    omega

theorem retryLoop_stop (stopAt : Option Nat) (oracle : ResultOracle)
    (workers : Nat) : ∀ (fuel : Nat) (st : OrchSt) (rf : List String),
    shouldStop stopAt st = true →
    retryLoop stopAt oracle workers fuel st rf = (st, rf) := by
  intro fuel st rf h
  cases fuel with
  | zero => rfl
  | succ n =>
    rw [retryLoop]
    by_cases hrf : rf = []
    · rw [if_pos hrf]
    · rw [if_neg hrf, if_pos h]

theorem retryLoop_exit (stopAt : Option Nat) (oracle : ResultOracle)
    (workers : Nat) (horacle : ∀ g n, oracle g n ≠ none) :
    ∀ (fuel : Nat) (st : OrchSt) (rf : List String),
      retryWF st rf → retryMeasure st rf < fuel →
      (retryLoop stopAt oracle workers fuel st rf).2 = [] ∨
      shouldStop stopAt (retryLoop stopAt oracle workers fuel st rf).1 =
        true := by
  intro fuel
  induction fuel with
  | zero =>
    intro st rf _ hm
    exact absurd hm (Nat.not_lt_zero _)
  | succ n ih =>
    intro st rf hwf hm
    rw [retryLoop]
    by_cases h1 : rf = []
    · rw [if_pos h1]
      exact Or.inl h1
    · rw [if_neg h1]
      by_cases h2 : shouldStop stopAt st = true
      · rw [if_pos h2]
        exact Or.inr h2
      · rw [if_neg h2]
        rcases retryRound_progress stopAt oracle workers st rf horacle hwf
          with ⟨hwf1, hdec⟩
        by_cases h3 : (retryRound stopAt oracle workers st rf).2.2 = 0 ∧
            (retryRound stopAt oracle workers st rf).2.1 = []
        · rw [if_pos h3]
          exact Or.inl h3.2
        · rw [if_neg h3]
          by_cases h4 : (retryRound stopAt oracle workers st rf).2.1 = []
          · cases n with
            | zero => exact Or.inl h4
            | succ m =>
              rw [retryLoop, if_pos h4]
              exact Or.inl h4
          · exact ih (retryRound stopAt oracle workers st rf).1
              (retryRound stopAt oracle workers st rf).2.1 hwf1
              (by have := hdec h4; omega)

theorem lookupFailed_of_mem_nodup :
    ∀ (ff : List (String × String × Nat)) (e : String × String × Nat),
      (keysOf ff).Nodup → e ∈ ff → lookupFailed ff e.1 = (e.2.1, e.2.2) := by
  intro ff
  induction ff with
  | nil => intro e _ he; simp at he
  | cons h rest ih =>
    intro e hnd he
    rw [keysOf, List.map_cons] at hnd
    by_cases hh : h.1 = e.1
    · have hhe : h = e := by
        rcases List.mem_cons.mp he with rfl | he2
        · rfl
        · exfalso
          exact (List.nodup_cons.mp hnd).1
            (hh ▸ List.mem_map.mpr ⟨e, he2, rfl⟩)
      subst hhe
      rw [lookupFailed, List.find?_cons]
      simp [beq_iff_eq.mpr rfl]
    · have he2 : e ∈ rest := by
        rcases List.mem_cons.mp he with rfl | he2
        · exact absurd rfl hh
        · exact he2
      rw [lookupFailed, List.find?_cons]
      have : (h.1 == e.1) = false := beq_eq_false_iff_ne.mpr hh
      simp only [this, Bool.false_eq_true, if_false]
      rw [← lookupFailed]
      exact ih e (List.nodup_cons.mp hnd).2 he2

theorem sum_map_le_const (g : String → Nat) (c : Nat) (h : ∀ x, g x ≤ c) :
    ∀ l : List String, (l.map g).sum ≤ c * l.length := by
  intro l
  induction l with
  | nil => simp
  | cons x rest ih =>
    rw [List.map_cons, List.sum_cons, List.length_cons]
    have := h x
    calc g x + (rest.map g).sum ≤ c + c * rest.length := by omega
      _ = c * (rest.length + 1) := by ring

theorem classifyResult_ff (oracle : ResultOracle) (st : OrchSt) (f : String) :
    ∃ app : List (String × String × Nat),
      (classifyResult oracle st f).failedFiles = st.failedFiles ++ app ∧
      app.length ≤ 1 ∧ ∀ e ∈ app, e.1 = f := by
  rw [classifyResult]
  rcases oracle f (callsOf st f) with _ | status
  · exact ⟨[], by simp, by simp, by simp⟩
  · dsimp only
    by_cases h1 : status = "processed_exif" ∨ status = "processed_no_exif"
    · rw [if_pos h1]
      exact ⟨[], by simp, by simp, by simp⟩
    · rw [if_neg h1]
      by_cases h2 : status = "processed_exif_failed" ∨
          status = "processed_unknown_exif_status"
      · rw [if_pos h2]
        exact ⟨[], by simp, by simp, by simp⟩
      · rw [if_neg h2]
        by_cases h3 : status = "skipped_exists"
        · rw [if_pos h3]
          exact ⟨[], by simp, by simp, by simp⟩
        · rw [if_neg h3]
          by_cases h4 : status = "stopped"
          · rw [if_pos h4]
            exact ⟨[], by simp, by simp, by simp⟩
          · rw [if_neg h4]
            exact ⟨[(f, status, 1)], by simp, by simp, by simp⟩

theorem classifyBatch_ff (stopAt : Option Nat) (oracle : ResultOracle) :
    ∀ (l : List String) (st : OrchSt),
      (keysOf st.failedFiles).Nodup → l.Nodup →
      (∀ x ∈ l, x ∉ keysOf st.failedFiles) →
      (keysOf (classifyBatch stopAt oracle l st).1.failedFiles).Nodup ∧
      (∀ y ∈ keysOf (classifyBatch stopAt oracle l st).1.failedFiles,
        y ∈ keysOf st.failedFiles ∨ y ∈ l) ∧
      (classifyBatch stopAt oracle l st).1.failedFiles.length ≤
        st.failedFiles.length + l.length := by
  intro l
  induction l with
  | nil =>
    intro st hnd _ _
    exact ⟨hnd, fun y hy => Or.inl hy, by simp [classifyBatch]⟩
  | cons f rest ih =>
    intro st hnd hlnd hfresh
    by_cases hs : shouldStop stopAt st = true
    · rw [classifyBatch, if_pos hs]
      exact ⟨hnd, fun y hy => Or.inl hy, by simp⟩
    · rw [classifyBatch, if_neg hs]
      rcases classifyResult_ff oracle st f with ⟨app, happ, hlen, hkey⟩
      have hkeys1 : keysOf (classifyResult oracle st f).failedFiles =
          keysOf st.failedFiles ++ keysOf app := by
        rw [happ, keysOf, keysOf, keysOf, List.map_append]
      have happkeys : ∀ y ∈ keysOf app, y = f := by
        intro y hy
        rcases List.mem_map.mp hy with ⟨e, he, hef⟩
        rw [← hef]
        exact hkey e he
      have hnd1 : (keysOf (classifyResult oracle st f).failedFiles).Nodup := by
        rw [hkeys1]
        apply List.Nodup.append hnd
        · cases app with
          | nil => simp [keysOf]
          | cons e etail =>
            have : etail = [] := by
              cases etail with
              | nil => rfl
              | cons _ _ => simp at hlen
            subst this
            simp [keysOf]
        · intro y hy1 hy2
          have := happkeys y hy2
          subst this
          exact hfresh y (List.mem_cons_self y rest) hy1
      have hfresh1 : ∀ x ∈ rest, x ∉
          keysOf (classifyResult oracle st f).failedFiles := by
        intro x hx hmem
        rw [hkeys1] at hmem
        rcases List.mem_append.mp hmem with hm1 | hm1
        · exact hfresh x (List.mem_cons_of_mem f hx) hm1
        · exact (List.nodup_cons.mp hlnd).1 ((happkeys x hm1) ▸ hx)
      rcases ih (classifyResult oracle st f) hnd1 (List.nodup_cons.mp hlnd).2
        hfresh1 with ⟨i1, i2, i3⟩
      refine ⟨i1, ?_, ?_⟩
      · intro y hy
        rcases i2 y hy with hy1 | hy1
        · rw [hkeys1] at hy1
          rcases List.mem_append.mp hy1 with hm1 | hm1
          · exact Or.inl hm1
          · exact Or.inr ((happkeys y hm1) ▸ List.mem_cons_self f rest)
        · exact Or.inr (List.mem_cons_of_mem f hy1)
      · have hlenrw : (classifyResult oracle st f).failedFiles.length =
            st.failedFiles.length + app.length := by
          rw [happ, List.length_append]
        simp only [List.length_cons]
        omega

theorem submitBatch_sub : ∀ (b : List String) (st : OrchSt),
    (∀ x ∈ (submitBatch st b).1, x ∈ b) ∧
    (∀ x ∈ (submitBatch st b).1, x ∉ st.processedFiles) ∧
    (submitBatch st b).1.Nodup := by
  intro b
  induction b with
  | nil =>
    intro st
    exact ⟨by simp [submitBatch], by simp [submitBatch], by simp [submitBatch]⟩
  | cons f rest ih =>
    intro st
    by_cases h : f ∈ st.processedFiles
    · rw [submitBatch, if_pos h]
      rcases ih st with ⟨i1, i2, i3⟩
      exact ⟨fun x hx => List.mem_cons_of_mem f (i1 x hx), i2, i3⟩
    · rw [submitBatch, if_neg h]
      rcases ih { st with processedFiles := f :: st.processedFiles }
        with ⟨i1, i2, i3⟩
      dsimp only
      refine ⟨?_, ?_, ?_⟩
      · intro x hx
        rcases List.mem_cons.mp hx with rfl | hx2
        · exact List.mem_cons_self x rest
        · exact List.mem_cons_of_mem f (i1 x hx2)
      · intro x hx
        rcases List.mem_cons.mp hx with rfl | hx2
        · exact h
        · have := i2 x hx2
          simp only [List.mem_cons] at this
          push_neg at this
          exact this.2
      · refine List.nodup_cons.mpr ⟨?_, i3⟩
        intro hf
        have := i2 f hf
        simp at this

theorem runBatches_ff (stopAt : Option Nat) (oracle : ResultOracle) :
    ∀ (bs : List (List String)) (st : OrchSt),
      (keysOf st.failedFiles).Nodup → bs.join.Nodup →
      (∀ z ∈ bs.join, z ∉ keysOf st.failedFiles) →
      (keysOf (runBatches stopAt oracle bs st).1.failedFiles).Nodup ∧
      (∀ y ∈ keysOf (runBatches stopAt oracle bs st).1.failedFiles,
        y ∈ keysOf st.failedFiles ∨ y ∈ bs.join) ∧
      (runBatches stopAt oracle bs st).1.failedFiles.length ≤
        st.failedFiles.length + bs.join.length := by
  intro bs
  induction bs with
  | nil =>
    intro st hnd _ _
    exact ⟨hnd, fun y hy => Or.inl hy, by simp [runBatches]⟩
  | cons b rest ih =>
    intro st hnd hjnd hfresh
    by_cases hs : shouldStop stopAt st = true
    · rw [runBatches, if_pos hs]
      exact ⟨hnd, fun y hy => Or.inl hy, by simp⟩
    · rw [runBatches, if_neg hs]
      have hjoin : (b :: rest).join = b ++ rest.join := rfl
      rw [hjoin] at hjnd hfresh
      rcases submitBatch_sub b st with ⟨s1, _, s3⟩
      rcases submitBatch_spec b st with ⟨sb, _⟩
      have hffsub : (submitBatch st b).2.failedFiles = st.failedFiles := by
        rw [sb]
      rcases classifyBatch_ff stopAt oracle (submitBatch st b).1
        (submitBatch st b).2 (by rw [hffsub]; exact hnd) s3
        (by
          intro x hx
          rw [hffsub]
          exact hfresh x (List.mem_append.mpr (Or.inl (s1 x hx))))
        with ⟨c1, c2, c3⟩
      rw [hffsub] at c2 c3
      by_cases hcs : shouldStop stopAt (classifyBatch stopAt oracle
          (submitBatch st b).1 (submitBatch st b).2).1 = true
      · rw [if_pos hcs]
        refine ⟨c1, ?_, ?_⟩
        · intro y hy
          rcases c2 y hy with hy1 | hy1
          · exact Or.inl hy1
          · exact Or.inr (List.mem_append.mpr (Or.inl (s1 y hy1)))
        · have hsublen : (submitBatch st b).1.length ≤ b.length :=
            (submitBatch_spec b st).2
          rw [hjoin]
          simp only [List.length_append]
          omega
      · rw [if_neg hcs]
        have hdisj : ∀ z ∈ rest.join, z ∉ b := by
          intro z hz hzb
          exact (List.nodup_append.mp hjnd).2.2 hzb hz
        rcases ih (classifyBatch stopAt oracle (submitBatch st b).1
          (submitBatch st b).2).1 c1 (List.nodup_append.mp hjnd).2.1
          (by
            intro z hz hmem
            rcases c2 z hmem with hm1 | hm1
            · exact hfresh z (List.mem_append.mpr (Or.inr hz)) hm1
            · exact hdisj z hz (s1 z hm1))
          with ⟨i1, i2, i3⟩
        refine ⟨i1, ?_, ?_⟩
        · intro y hy
          rcases i2 y hy with hy1 | hy1
          · rcases c2 y hy1 with hm1 | hm1
            · exact Or.inl hm1
            · exact Or.inr (List.mem_append.mpr (Or.inl (s1 y hm1)))
          · exact Or.inr (List.mem_append.mpr (Or.inr hy1))
        · have hsublen : (submitBatch st b).1.length ≤ b.length :=
            (submitBatch_spec b st).2
          rw [hjoin]
          simp only [List.length_append]
          omega

theorem mainPass_ff (stopAt : Option Nat) (oracle : ResultOracle)
    (workers : Nat) (files : List String) (notDone : Nat)
    (hnd : files.Nodup) :
    (keysOf (mainPass stopAt oracle workers files
      notDone).failedFiles).Nodup ∧
    (mainPass stopAt oracle workers files notDone).failedFiles.length ≤
      files.length := by
  have hjoin : (chunks workers files).join = files :=
    chunks_join workers files.length files (le_refl _)
  rcases runBatches_ff stopAt oracle (chunks workers files) initialOrchSt
    (by simp [initialOrchSt, keysOf]) (by rw [hjoin]; exact hnd)
    (by intro z _; simp [initialOrchSt, keysOf]) with ⟨r1, _, r3⟩
  rw [hjoin] at r3
  simp only [initialOrchSt, List.length_nil, Nat.zero_add] at r3
  rcases mainPass_cases stopAt oracle workers files notDone with
    ⟨_, heq⟩ | ⟨_, heq⟩
  · rw [heq]
    exact ⟨r1, r3⟩
  · rw [heq]
    have hff : (cleanupState (runBatches stopAt oracle (chunks workers files)
        initialOrchSt) notDone).failedFiles =
        (runBatches stopAt oracle (chunks workers files)
          initialOrchSt).1.failedFiles := by
      rw [cleanupState]
    rw [hff]
    exact ⟨r1, r3⟩

/-- C2 (amended): the auto-retry loop terminates exactly under two
conditions — (a) no retryable items remain, or (b) cancellation is
observed. A retry round with zero net progress does not stop the loop
when retryable items remain (the code only logs and continues, lines
1056-1060; see the counterexample); the loop still terminates without
that condition because every remaining item's attempt counter strictly
increases each round and items are dropped once their status's
max_attempts (at most 5) is reached. Stated for worker results that are
always present (process_single_file always returns a dict) and any fuel
beyond the total attempt budget. -/
theorem C2_amended_retry_exit :
    ∀ (stopAt : Option Nat) (oracle : ResultOracle) (workers : Nat)
      (files : List String) (notDone fuel : Nat),
      files.Nodup → (∀ g n, oracle g n ≠ none) →
      5 * files.length + 1 ≤ fuel →
      (batch_process_files stopAt oracle workers files notDone true
        fuel).2 = [] ∨
      shouldStop stopAt
        (batch_process_files stopAt oracle workers files notDone true
          fuel).1 = true := by
  intro stopAt oracle workers files notDone fuel hnd horacle hfuel
  rw [batch_process_files, retryPhase]
  set stM := mainPass stopAt oracle workers files notDone with hstM
  by_cases hgate : (true && decide ((0 : Int) < stM.failed) &&
      !(shouldStop stopAt stM)) = true
  · rw [if_pos hgate]
    set rf0 := (stM.failedFiles.filter
      (fun e => is_retryable e.2.1 e.2.2)).map (fun e => e.1) with hrf0
    rcases mainPass_ff stopAt oracle workers files notDone hnd
      with ⟨hknd, hfflen⟩
    rw [← hstM] at hknd hfflen
    have hwf : retryWF stM rf0 := by
      refine ⟨hknd, ?_, ?_⟩
      · have hrk : rf0 = keysOf (stM.failedFiles.filter
            (fun e => is_retryable e.2.1 e.2.2)) := rfl
        rw [hrk]
        exact ((List.filter_sublist _).map _).nodup hknd
      · intro f hf
        rcases List.mem_map.mp hf with ⟨e, he, hef⟩
        have hein : e ∈ stM.failedFiles := List.mem_of_mem_filter he
        have hret : is_retryable e.2.1 e.2.2 = true := by
          simpa using List.of_mem_filter he
        have hlk := lookupFailed_of_mem_nodup stM.failedFiles e hknd hein
        subst hef
        refine ⟨List.mem_map.mpr ⟨e, hein, rfl⟩, ?_⟩
        rw [hlk]
        exact hret
    have hmb : retryMeasure stM rf0 < fuel := by
      have h1 : retryMeasure stM rf0 ≤ 5 * rf0.length := by
        rw [retryMeasure]
        exact sum_map_le_const _ 5 (fun x => by omega) rf0
      have h2 : rf0.length ≤ stM.failedFiles.length := by
        rw [hrf0]
        simp only [List.length_map]
        exact List.length_filter_le _ _
      omega
    exact retryLoop_exit stopAt oracle workers horacle fuel stM rf0 hwf hmb
  · rw [if_neg hgate]
    exact Or.inl rfl

/-- C2 amended witness: one persistently failing file, fuel 6. -/
theorem C2_amended_witness :
    (batch_process_files none (fun _ _ => some "failed_api") 1 ["w1"] 0 true
      6).2 = [] ∨
    shouldStop none (batch_process_files none (fun _ _ => some "failed_api")
      1 ["w1"] 0 true 6).1 = true :=
  C2_amended_retry_exit none (fun _ _ => some "failed_api") 1 ["w1"] 0 6
    (by decide) (fun g n => by simp) (by decide)
